import Mathlib

/-!
# Starship adventure: graph generation and play loop

A shallow embedding of `robinsti.adventure.c` and the properties of its room
graph generator (room selection, edge construction, room types) and of its
play loop (room files, choice matching, recorded path).

Conventions of the embedding

* `rand()` is a source of non-negative integers; the values it returns, in the
  order the program asks for them, are a `List Nat`.  A loop that asks for a
  value when the list is exhausted has not completed on that list (`none`).
* A `char *` that is only ever compared with `==` (a room name, which always
  points at one of the ten literals of `roomBank`) is represented by the index
  of that literal.  A `char *` whose characters are read (`strncmp`) is
  represented by the characters in front of its terminating NUL.
* `int` variables that only count upwards from zero are `Nat`; differences are
  taken in `Int`.
* Storage returned by `malloc` that the program reads before writing it (the
  `type` buffer of a room) has unspecified content; that content is a
  parameter (`fresh`) of the embedding.
-/

namespace Adventure

/-- The characters of a C string in front of the terminating NUL. -/
abbrev CString := List Char

/-- A pointer to one of the literals of `roomBank`, given by the literal's index. -/
abbrev NamePtr := Nat

/-- The array store `buf[idx] = v` on a buffer whose slots `0 .. buf.length - 1`
have been written so far: an earlier slot is overwritten, the next free slot is
filled. -/
def store {α : Type} (buf : List α) (idx : Nat) (v : α) : List α :=
  if idx < buf.length then buf.set idx v else buf ++ [v]

/-- `struct ConnList`: `connections` holds the slots of the allocated buffer
that have been written. -/
structure ConnList where
  size : Nat
  capacity : Nat
  connections : List NamePtr
  deriving DecidableEq, Repr

/-- `struct Room`. -/
structure Room where
  name : NamePtr
  type : CString
  connectionList : ConnList
  deriving DecidableEq, Repr

/-- `struct PlayerToken`: `pathToVictory` holds the rows written so far.  The
array of line 40 has 32 rows (`pathRows`): a value with more than 32 rows
stands for a store outside the array and describes no state of the program. -/
structure PlayerToken where
  stepsTaken : Nat
  pathToVictory : List CString
  deriving DecidableEq, Repr

/-- The ten literals of `roomBank` (lines 219-229). -/
def roomBank : List CString :=
  ["Conference".toList, "Lounge".toList, "Bridge".toList, "Transporter".toList,
   "Holodeck".toList, "Sickbay".toList, "Engineering".toList, "Cargo".toList,
   "Lab".toList, "Shuttlebay".toList]

/-- The characters a name pointer points at. -/
def nameString (p : NamePtr) : CString := roomBank.getD p []

/-- `_initConnList` (lines 58-62): capacity `numConns`, size 0, a buffer with no
slot written. -/
def _initConnList (room : Room) (numConns : Nat) : Room :=
  { room with connectionList := { size := 0, capacity := numConns, connections := [] } }

/-- `_initRoom` (lines 78-85).  `fresh` is the content of the storage that
`malloc` returned for `type`, which the program never initialises. -/
def _initRoom (room : Room) (initName : NamePtr) (numConns : Nat) (fresh : CString) : Room :=
  _initConnList { room with name := initName, type := fresh } numConns

/-- `_createRoom` (lines 98-103). -/
def _createRoom (initName : NamePtr) (numOfConns : Nat) (fresh : CString) : Room :=
  _initRoom { name := 0, type := [], connectionList := { size := 0, capacity := 0, connections := [] } }
    initName numOfConns fresh

/-- `_createNewPlayer` (lines 175-181): no step taken, no row of the path
written. -/
def _createNewPlayer : PlayerToken := { stepsTaken := 0, pathToVictory := [] }

/-- The loop of lines 125-129: is some slot `i < size` of `roomBase` equal to the
name of `roomConn`? -/
def alreadyConnected (roomBase roomConn : Room) : Bool :=
  (List.range roomBase.connectionList.size).any
    (fun i => roomBase.connectionList.connections[i]? == some roomConn.name)

/-- The two stores and the two increments of lines 140-148 and 154-160, applied
to `roomBase` and to `roomConn` (whose capacity has been settled before). -/
def connectRooms (roomBase roomConn : Room) : Room × Room :=
  let b := roomBase.connectionList
  let c := roomConn.connectionList
  ({ roomBase with connectionList :=
      { b with connections := store b.connections b.size roomConn.name, size := b.size + 1 } },
   { roomConn with connectionList :=
      { c with connections := store c.connections c.size roomBase.name, size := c.size + 1 } })

/-- `_createEdge` (lines 121-163) on two different rooms: the two rooms after
the call and the returned `int`. -/
def _createEdge (roomBase roomConn : Room) : Room × Room × Int :=
  if alreadyConnected roomBase roomConn then (roomBase, roomConn, 0)
  else if roomConn.connectionList.size = 6 then (roomBase, roomConn, 0)
  else if roomConn.connectionList.size = roomConn.connectionList.capacity
      ∧ roomConn.connectionList.size < 7 then
    let roomConn1 := { roomConn with connectionList :=
      { roomConn.connectionList with capacity := roomConn.connectionList.capacity + 1 } }
    let r := connectRooms roomBase roomConn1
    (r.1, r.2, 1)
  else
    let r := connectRooms roomBase roomConn
    (r.1, r.2, 1)

/-- The connection list of a room: the slots `0 .. size - 1` of its buffer, in
order. -/
def connNames (r : Room) : List NamePtr :=
  r.connectionList.connections.take r.connectionList.size

/-- A slot of `rooms` that `main` has not assigned yet (line 236); its content is
never read. -/
def unsetRoom : Room :=
  { name := 0, type := [], connectionList := { size := 0, capacity := 0, connections := [] } }

/-- The element `rooms[i]` of the array `rooms`. -/
def roomAt (rooms : List Room) (i : Nat) : Room := rooms.getD i unsetRoom

/-! ### Room selection (lines 241-287) -/

/-- The scan of lines 260-267 over `roomsChosen`: the value of `rerandom` after
the loop, given its value before. -/
def checkChosen (random : Int) : List Int → Int → Int
  | [], rerandom => rerandom
  | c :: cs, _ => if random = c then 1 else checkChosen random cs 0

/-- Lines 270-277: the number of connections computed from the raw draw. -/
def numConnections (draw : Nat) : Nat :=
  let randNum := draw % 7
  let randNum := if randNum > 3 then randNum - 3 else randNum
  randNum + 3

/-- The variables of the selection loop. -/
structure Selection where
  rooms : List Room
  roomsChosen : List Int
  rerandom : Int
  deriving DecidableEq, Repr

/-- The state in front of the selection loop (lines 235-250). -/
def selectionStart : Selection :=
  { rooms := List.replicate 7 unsetRoom, roomsChosen := List.replicate 7 (-1), rerandom := 0 }

/-- The selection loop of lines 253-287 from counter value `i`; every pass of
the `do`-`while` body takes two draws.  The result is the state after the loop
and the draws not used. -/
def selectRooms (fresh : Nat → CString) : List Nat → Nat → Selection → Option (Selection × List Nat)
  | d1 :: d2 :: rest, i, s =>
    if i < 7 then
      let random := d1 % 10
      let rerandom := checkChosen random s.roomsChosen s.rerandom
      let randNum := numConnections d2
      if rerandom = 0 then
        selectRooms fresh rest (i + 1)
          { rooms := s.rooms.set i (_createRoom random randNum (fresh i)),
            roomsChosen := s.roomsChosen.set i random,
            rerandom := rerandom }
      else
        selectRooms fresh rest i { s with rerandom := rerandom }
    else some (s, d1 :: d2 :: rest)
  | draws, i, s => if i < 7 then none else some (s, draws)

/-! ### Edge construction (lines 290-326) -/

/-- The call `_createEdge(rooms[i], rooms[randConnIdx])` of line 322 for
`i ≠ randConnIdx`: the array after the call and the returned value. -/
def createEdgeAt (rooms : List Room) (i randConnIdx : Nat) : List Room × Int :=
  let r := _createEdge (roomAt rooms i) (roomAt rooms randConnIdx)
  ((rooms.set i r.1).set randConnIdx r.2.1, r.2.2)

/-- The variables of the edge construction loop at the draw of line 311; the
loop has finished when `i = 7`. -/
structure EdgeLoop where
  rooms : List Room
  i : Nat
  j : Int
  connsToAdd : Int
  deriving DecidableEq, Repr

/-- The outer `for` of lines 291-302 with `n` passes left, from counter value `i`
up to the first room that still needs a connection. -/
def nextRoom (rooms : List Room) : Nat → Nat → EdgeLoop
  | 0, i => { rooms := rooms, i := i, j := 0, connsToAdd := 0 }
  | n + 1, i =>
    let connsToAdd : Int :=
      ((roomAt rooms i).connectionList.capacity : Int) - ((roomAt rooms i).connectionList.size : Int)
    if connsToAdd < 1 then nextRoom rooms n (i + 1)
    else { rooms := rooms, i := i, j := 0, connsToAdd := connsToAdd }

/-- Lines 311-319: the candidate for which `_createEdge` is called on draw `r`,
if it is called. -/
def candidate (s : EdgeLoop) (r : Nat) : Option Nat :=
  if s.i < 7 then
    let randConnIdx := r % 7
    if randConnIdx = s.i then none else some randConnIdx
  else none

/-- One pass of the `do`-`while` body of lines 310-324 on draw `r`, followed by
the loop tests up to the next draw. -/
def edgeStep (s : EdgeLoop) (r : Nat) : EdgeLoop :=
  match candidate s r with
  | none => s
  | some randConnIdx =>
    let e := createEdgeAt s.rooms s.i randConnIdx
    if e.2 = 0 then { s with rooms := e.1 }
    else if s.j + 1 < s.connsToAdd then { s with rooms := e.1, j := s.j + 1 }
    else nextRoom e.1 (6 - s.i) (s.i + 1)

/-- The edge construction loop on a list of draws: the state reached when the
loop has finished or the draws are used up, and the draws not used. -/
def runEdges : EdgeLoop → List Nat → EdgeLoop × List Nat
  | s, [] => (s, [])
  | s, r :: rest => if s.i < 7 then runEdges (edgeStep s r) rest else (s, r :: rest)

/-- Graph generation: room selection followed by edge construction. -/
def generate (fresh : Nat → CString) (draws : List Nat) : Option (EdgeLoop × List Nat) :=
  match selectRooms fresh draws 0 selectionStart with
  | none => none
  | some (sel, rest) => some (runEdges (nextRoom sel.rooms 7 0) rest)

/-! ### Room types (lines 331-357) -/

/-- `strncmp` on C strings: negative, zero or positive. -/
def strncmp : CString → CString → Nat → Int
  | _, _, 0 => 0
  | [], [], _ + 1 => 0
  | [], _ :: _, _ + 1 => -1
  | _ :: _, [], _ + 1 => 1
  | a :: as, b :: bs, n + 1 =>
    if a = b then strncmp as bs n else if a.toNat < b.toNat then -1 else 1

/-- The assignment `rooms[idx]->type = literal`. -/
def setType (rooms : List Room) (idx : Nat) (literal : CString) : List Room :=
  rooms.set idx { roomAt rooms idx with type := literal }

/-- The `do`-`while` of lines 339-346: the first draw that differs from
`startIdx`, and the draws not used. -/
def chooseEnd (startIdx : Nat) : List Nat → Option (Nat × List Nat)
  | [] => none
  | r :: rest =>
    let endIdx := r % 7
    if endIdx = startIdx then chooseEnd startIdx rest else some (endIdx, rest)

/-- The body of the loop of lines 352-357 for counter value `i`. -/
def setMidStep (rs : List Room) (i : Nat) : List Room :=
  if strncmp (roomAt rs i).type "START_ROOM".toList 3 = 0
      ∨ strncmp (roomAt rs i).type "END_ROOM".toList 3 = 0 then rs
  else setType rs i "MID_ROOM".toList

/-- The loop of lines 352-357. -/
def setMidRooms (rooms : List Room) : List Room :=
  (List.range 7).foldl setMidStep rooms

/-- Type assignment, lines 331-357: the array after it and the draws not used. -/
def assignTypes (rooms : List Room) : List Nat → Option (List Room × List Nat)
  | [] => none
  | r :: rest =>
    let startIdx := r % 7
    let rooms1 := setType rooms startIdx "START_ROOM".toList
    match chooseEnd startIdx rest with
    | none => none
    | some (endIdx, rest1) =>
      some (setMidRooms (setType rooms1 endIdx "END_ROOM".toList), rest1)

/-! ### The choice matching loop (lines 468-504) -/

/-- The variables the matching loop writes. -/
structure Turn where
  player : PlayerToken
  beginIdx : Nat
  error : Int
  deriving DecidableEq, Repr

/-- The scan of lines 490-497 for the next room. -/
def nextRoomScan (rooms : List Room) (inputString : CString) (beginIdx : Nat) : Nat :=
  (List.range 7).foldl
    (fun b i => if strncmp (nameString (roomAt rooms i).name) inputString 3 = 0 then i else b)
    beginIdx

/-- Lines 482-498: the matching branch for the choice `choices[i]`.  The store
of line 483 goes to row `stepsTaken`; it lies inside `pathToVictory` only for
`stepsTaken < 32`, and only then does the result describe what the program
does next. -/
def takeChoice (rooms : List Room) (inputString : CString) (t : Turn) (choice : CString) : Turn :=
  { player :=
      { stepsTaken := t.player.stepsTaken + 1,
        pathToVictory := store t.player.pathToVictory t.player.stepsTaken choice },
    beginIdx := nextRoomScan rooms inputString t.beginIdx,
    error := 0 }

/-- The `for` of lines 477-504 with `n` passes left, from counter value `i`. -/
def choiceLoop (rooms : List Room) (choices : List CString) (inputString : CString) :
    Nat → Nat → Turn → Turn
  | 0, _, t => t
  | n + 1, i, t =>
    if strncmp (choices.getD i []) inputString 3 = 0 then
      takeChoice rooms inputString t (choices.getD i [])
    else choiceLoop rooms choices inputString n (i + 1) { t with error := 1 }

/-- Lines 473-504: the matching loop over the `printcounter` presented choices. -/
def matchChoice (rooms : List Room) (choices : List CString) (printcounter : Nat)
    (inputString : CString) (player : PlayerToken) (beginIdx : Nat) : Turn :=
  choiceLoop rooms choices inputString printcounter 0
    { player := player, beginIdx := beginIdx, error := 0 }

/-! ### Room records and the play loop (lines 366-510) -/

/-- The line `"CONNECTION %d: %s\n"` written for slot `j` holding the name `p`
(line 380). -/
def connectionLine (j : Nat) (p : NamePtr) : CString :=
  "CONNECTION ".toList ++ (Nat.repr (j + 1)).toList ++ ": ".toList ++ nameString p ++ ['\n']

/-- The lines written to the file of a room (lines 377-383), in order.  With a
name of the bank and one of the three type literals every line is shorter than
the 80 characters of `myLine`, so `fgets` hands the lines back one by one.  A
slot holds a null pointer in no case, and a slot that was never written gives
no line. -/
def roomRecord (r : Room) : List CString :=
  [("ROOM NAME: ".toList ++ nameString r.name ++ ['\n'])]
    ++ (List.range r.connectionList.size).filterMap
        (fun j => (r.connectionList.connections[j]?).map (connectionLine j))
    ++ [("ROOM TYPE: ".toList ++ r.type ++ ['\n'])]

/-- Lines 451-455: a final newline is cut off. -/
def stripNewline (tmpString : CString) : CString :=
  if tmpString.getLast? = some '\n' then tmpString.dropLast else tmpString

/-- One pass of the `while` of lines 435-464 on the line `myLine`: the rows of
`choices` and `printcounter` after it. -/
def readLine (st : List CString × Nat) (myLine : CString) : List CString × Nat :=
  if strncmp myLine "CONNECTION ".toList 10 = 0 then
    (store st.1 st.2 (stripNewline (myLine.drop 14)), st.2 + 1)
  else st

/-- Lines 433-464: reading the file of the current room into `choices`, with
`printcounter` starting at 0. -/
def readChoices (lines : List CString) (choices : List CString) : List CString × Nat :=
  lines.foldl readLine (choices, 0)

/-- The variables of the play loop between two turns. -/
structure Play where
  player : PlayerToken
  beginIdx : Nat
  choices : List CString
  deriving DecidableEq, Repr

/-- The lookup of lines 393-400; the result is -1 when no type starts with `S`. -/
def findStart (rooms : List Room) : Int :=
  (List.range 7).foldl
    (fun (b : Int) i =>
      if strncmp (roomAt rooms i).type "START_ROOM".toList 1 = 0 then (i : Int) else b)
    (-1)

/-- The state in front of the play loop (lines 389-409): a new player, the
index found by the lookup, no row of `choices` written. -/
def playStart (rooms : List Room) : Play :=
  { player := _createNewPlayer, beginIdx := (findStart rooms).toNat, choices := [] }

/-- The test of line 413. -/
def atEnd (rooms : List Room) (st : Play) : Bool :=
  decide (strncmp (roomAt rooms st.beginIdx).type "END".toList 3 = 0)

/-- The connection names presented in a turn: the rows of `choices` below
`printcounter` after the file of the current room has been read. -/
def presented (rooms : List Room) (st : Play) : List CString :=
  (readChoices (roomRecord (roomAt rooms st.beginIdx)) st.choices).1.take
    (readChoices (roomRecord (roomAt rooms st.beginIdx)) st.choices).2

/-- One turn of the play loop after the test of line 413 (lines 418-508) on the
input line `inputString`.  The file opened is the one written for
`rooms[beginIdx]`: the seven paths differ since the seven names do, and the
rooms do not change after the files have been written. -/
def playTurn (rooms : List Room) (st : Play) (inputString : CString) : Play :=
  let rc := readChoices (roomRecord (roomAt rooms st.beginIdx)) st.choices
  let t := matchChoice rooms rc.1 rc.2 inputString st.player st.beginIdx
  { player := t.player, beginIdx := t.beginIdx, choices := rc.1 }

/-- The play loop of lines 410-510 on a list of input lines: the state when the
END room has been reached or the input is used up, and the lines not read. -/
def playLoop (rooms : List Room) : Play → List CString → Play × List CString
  | st, [] => (st, [])
  | st, inputString :: rest =>
    if atEnd rooms st then (st, inputString :: rest)
    else playLoop rooms (playTurn rooms st inputString) rest

/-- The number of rows of `pathToVictory` (line 40). -/
def pathRows : Nat := 32

/-- The connection names the inputs match, in the order of the inputs: for each
input read, the earliest presented connection that agrees with it on the first
3 characters, when there is one. -/
def acceptedNames (rooms : List Room) : Play → List CString → List CString
  | _, [] => []
  | st, inputString :: rest =>
    if atEnd rooms st then []
    else
      match (presented rooms st).find? (fun c => decide (c.take 3 = inputString.take 3)) with
      | some c => c :: acceptedNames rooms (playTurn rooms st inputString) rest
      | none => acceptedNames rooms (playTurn rooms st inputString) rest

/-- The names `path` are a walk from `rooms[cur]`: the first is the name of a
room connected to `rooms[cur]`, and the others are a walk from that room. -/
def IsWalk (rooms : List Room) : Nat → List CString → Prop
  | _, [] => True
  | cur, n :: path =>
    ∃ l, l < 7 ∧ nameString (roomAt rooms l).name = n
      ∧ (roomAt rooms l).name ∈ connNames (roomAt rooms cur) ∧ IsWalk rooms l path

/-! ### Invariants of the generator -/

/-- The bank indices drawn at line 257 in a list of draws consumed by the
selection loop: every other draw, modulo 10. -/
def bankDraws : List Nat → List Int
  | d1 :: _ :: rest => ((d1 % 10 : Nat) : Int) :: bankDraws rest
  | _ => []

/-- The invariant of the selection loop at counter value `i`. -/
structure SelInv (i : Nat) (s : Selection) : Prop where
  rlen : s.rooms.length = 7
  clen : s.roomsChosen.length = 7
  ile : i ≤ 7
  unset : s.roomsChosen.drop i = List.replicate (7 - i) (-1)
  nodup : (s.roomsChosen.take i).Nodup
  range : ∀ c ∈ s.roomsChosen.take i, 0 ≤ c ∧ c < 10
  room : ∀ k < i, ((roomAt s.rooms k).name : Int) = s.roomsChosen.getD k (-1)
    ∧ (roomAt s.rooms k).connectionList.size = 0
    ∧ (roomAt s.rooms k).connectionList.connections = []
    ∧ 3 ≤ (roomAt s.rooms k).connectionList.capacity
    ∧ (roomAt s.rooms k).connectionList.capacity ≤ 6

/-- The invariant of the array `rooms` during edge construction. -/
structure GraphInv (rooms : List Room) : Prop where
  len : rooms.length = 7
  inj : ∀ k < 7, ∀ l < 7, (roomAt rooms k).name = (roomAt rooms l).name → k = l
  card : ∀ k < 7, (connNames (roomAt rooms k)).length = (roomAt rooms k).connectionList.size
  bounds : ∀ k < 7, (roomAt rooms k).connectionList.size ≤ (roomAt rooms k).connectionList.capacity
    ∧ 3 ≤ (roomAt rooms k).connectionList.capacity
    ∧ (roomAt rooms k).connectionList.capacity ≤ 6
  closed : ∀ k < 7, ∀ p ∈ connNames (roomAt rooms k), ∃ l < 7, (roomAt rooms l).name = p
  symm : ∀ k < 7, ∀ l < 7, (roomAt rooms l).name ∈ connNames (roomAt rooms k) →
    (roomAt rooms k).name ∈ connNames (roomAt rooms l)
  noself : ∀ k < 7, (roomAt rooms k).name ∉ connNames (roomAt rooms k)
  nodup : ∀ k < 7, (connNames (roomAt rooms k)).Nodup

/-- The invariant of the edge construction loop at the draw of line 311. -/
structure LoopInv (s : EdgeLoop) : Prop where
  graph : GraphInv s.rooms
  ile : s.i ≤ 7
  finished : ∀ k < s.i, (roomAt s.rooms k).connectionList.size
    = (roomAt s.rooms k).connectionList.capacity
  cur : s.i < 7 → 0 ≤ s.j ∧ s.j < s.connsToAdd
    ∧ ((roomAt s.rooms s.i).connectionList.capacity : Int)
        - ((roomAt s.rooms s.i).connectionList.size : Int) = s.connsToAdd - s.j

/-- The arrays `rooms` the play loop can start with: generation has completed
and the types have been assigned; the type buffers `fresh` do not begin with the
first three characters of START_ROOM or END_ROOM. -/
def Generated (rooms : List Room) : Prop :=
  ∃ (fresh : Nat → CString) (draws rest rest1 : List Nat) (s : EdgeLoop),
    (∀ k < 7, strncmp (fresh k) "START_ROOM".toList 3 ≠ 0
      ∧ strncmp (fresh k) "END_ROOM".toList 3 ≠ 0)
    ∧ generate fresh draws = some (s, rest) ∧ s.i = 7
    ∧ assignTypes s.rooms rest = some (rooms, rest1)

/-- What the play loop uses of a generated game. -/
structure GameInv (rooms : List Room) : Prop where
  graph : GraphInv rooms
  bank : ∀ k < 7, (roomAt rooms k).name < 10
  types : ∃ startIdx, startIdx < 7 ∧ ∃ endIdx, endIdx < 7 ∧ startIdx ≠ endIdx
    ∧ ∀ k < 7,
      ((roomAt rooms k).type = "START_ROOM".toList ↔ k = startIdx)
      ∧ ((roomAt rooms k).type = "END_ROOM".toList ↔ k = endIdx)
      ∧ (k ≠ startIdx → k ≠ endIdx → (roomAt rooms k).type = "MID_ROOM".toList)

/-- The names of the rooms other than `rooms[c]`. -/
def otherNames (rooms : List Room) (c : Nat) : List NamePtr :=
  ((List.range 7).filter (fun l => l ≠ c)).map (fun l => (roomAt rooms l).name)

/-- The number of connection slots in use over the seven rooms. -/
def totalSize (rooms : List Room) : Nat :=
  ∑ k in Finset.range 7, (roomAt rooms k).connectionList.size

/-! ### Sample runs -/

/-- A room with the given name, size, capacity and written slots, and an empty
type buffer. -/
def sampleRoom (name size capacity : Nat) (connections : List NamePtr) : Room :=
  { name := name, type := [],
    connectionList := { size := size, capacity := capacity, connections := connections } }

/-- Type buffers that read as the empty string. -/
def sampleFresh : Nat → CString := fun _ => []

/-- Draws on which generation completes, followed by three draws for the room
types. -/
def sampleDraws : List Nat :=
  [16, 0, 6, 1, 12, 9, 2, 3, 26, 4, 8, 12, 3, 6, 0, 13, 4, 5, 7, 1,
   2, 2, 3, 0, 4, 5, 6, 3, 4, 6, 0, 5, 4, 3, 1, 2, 5, 6, 9, 1, 4, 2, 6, 3, 15,
   0, 1, 2, 3, 4, 5, 6, 3, 3, 5]

/-- The state generation reaches on `sampleDraws`. -/
def sampleFinal : EdgeLoop :=
  { rooms :=
      [sampleRoom 6 4 4 [8, 3, 0, 2], sampleRoom 2 6 6 [4, 7, 3, 0, 6, 8],
       sampleRoom 8 5 5 [6, 4, 0, 3, 2], sampleRoom 3 6 6 [6, 2, 8, 4, 7, 0],
       sampleRoom 0 6 6 [6, 2, 8, 3, 7, 4], sampleRoom 4 5 5 [2, 8, 3, 0, 7],
       sampleRoom 7 4 4 [2, 3, 0, 4]],
    i := 7, j := 0, connsToAdd := 0 }

/-- The state of the selection loop after it has run on `sampleDraws`. -/
def sampleSelection : Selection :=
  { rooms :=
      [sampleRoom 6 0 3 [], sampleRoom 2 0 5 [], sampleRoom 8 0 5 [], sampleRoom 3 0 6 [],
       sampleRoom 0 0 6 [], sampleRoom 4 0 5 [], sampleRoom 7 0 4 []],
    roomsChosen := [6, 2, 8, 3, 0, 4, 7],
    rerandom := 0 }

/-- The rooms of `sampleFinal` after type assignment on the draws 3, 3, 5. -/
def sampleTyped : List Room :=
  [{ sampleRoom 6 4 4 [8, 3, 0, 2] with type := "MID_ROOM".toList },
   { sampleRoom 2 6 6 [4, 7, 3, 0, 6, 8] with type := "MID_ROOM".toList },
   { sampleRoom 8 5 5 [6, 4, 0, 3, 2] with type := "MID_ROOM".toList },
   { sampleRoom 3 6 6 [6, 2, 8, 4, 7, 0] with type := "START_ROOM".toList },
   { sampleRoom 0 6 6 [6, 2, 8, 3, 7, 4] with type := "MID_ROOM".toList },
   { sampleRoom 4 5 5 [2, 8, 3, 0, 7] with type := "END_ROOM".toList },
   { sampleRoom 7 4 4 [2, 3, 0, 4] with type := "MID_ROOM".toList }]

/-- The state generation reaches on the first 30 draws of `sampleDraws`: the
second room is being connected. -/
def sampleMid : EdgeLoop :=
  { rooms :=
      [sampleRoom 6 3 3 [8, 3, 0], sampleRoom 2 4 5 [4, 7, 3, 0],
       sampleRoom 8 1 5 [6], sampleRoom 3 2 6 [6, 2],
       sampleRoom 0 2 6 [6, 2], sampleRoom 4 1 5 [2],
       sampleRoom 7 1 4 [2]],
    i := 1, j := 4, connsToAdd := 5 }

/-- The state generation reaches on the first 43 draws of `sampleDraws`: the
fifth room is being connected and two rooms have six connections. -/
def sampleLate : EdgeLoop :=
  { rooms :=
      [sampleRoom 6 4 4 [8, 3, 0, 2], sampleRoom 2 6 6 [4, 7, 3, 0, 6, 8],
       sampleRoom 8 5 5 [6, 4, 0, 3, 2], sampleRoom 3 6 6 [6, 2, 8, 4, 7, 0],
       sampleRoom 0 5 6 [6, 2, 8, 3, 7], sampleRoom 4 3 5 [2, 8, 3],
       sampleRoom 7 3 4 [2, 3, 0]],
    i := 4, j := 1, connsToAdd := 2 }

/-- Draws for a game whose START room gets the connections Lounge, Bridge and
Lab, in this order; the last two draws are those for the room types. -/
def scenarioDraws : List Nat :=
  [0, 0, 1, 0, 2, 0, 8, 0, 3, 0, 4, 0, 5, 0,
   1, 2, 3, 2, 3, 3, 5, 6, 1, 6, 2, 3,
   0, 5]

/-- The state generation reaches on `scenarioDraws`. -/
def scenarioFinal : EdgeLoop :=
  { rooms :=
      [sampleRoom 0 3 3 [1, 2, 8], sampleRoom 1 4 4 [0, 2, 8, 3],
       sampleRoom 2 4 4 [0, 1, 8, 4], sampleRoom 8 4 4 [0, 1, 2, 5],
       sampleRoom 3 3 3 [4, 5, 1], sampleRoom 4 3 3 [3, 5, 2],
       sampleRoom 5 3 3 [3, 4, 8]],
    i := 7, j := 0, connsToAdd := 0 }

/-- The rooms of `scenarioFinal` after type assignment on the draws 0, 5:
Conference is the START room and Holodeck the END room. -/
def scenarioRooms : List Room :=
  [{ sampleRoom 0 3 3 [1, 2, 8] with type := "START_ROOM".toList },
   { sampleRoom 1 4 4 [0, 2, 8, 3] with type := "MID_ROOM".toList },
   { sampleRoom 2 4 4 [0, 1, 8, 4] with type := "MID_ROOM".toList },
   { sampleRoom 8 4 4 [0, 1, 2, 5] with type := "MID_ROOM".toList },
   { sampleRoom 3 3 3 [4, 5, 1] with type := "MID_ROOM".toList },
   { sampleRoom 4 3 3 [3, 5, 2] with type := "END_ROOM".toList },
   { sampleRoom 5 3 3 [3, 4, 8] with type := "MID_ROOM".toList }]

/-- Input lines that walk to and fro between Transporter, the START room of
`sampleTyped`, and Engineering: `n` lines starting with "Engineering". -/
def bounceInputs : Nat → List CString
  | 0 => []
  | n + 1 =>
    bounceInputs n ++ [if n % 2 = 0 then "Engineering\n".toList else "Transporter\n".toList]

/-- How often the value `v` is computed from the seven raw draws 0, ..., 6. -/
def drawsGiving (v : Nat) : Nat := ((List.range 7).map numConnections).count v

/-! ## Properties -/

/-! ### Stores and `_createEdge` -/

theorem take_set_succ {α : Type} (v : α) :
    ∀ (buf : List α) (idx : Nat), idx < buf.length →
      (buf.set idx v).take (idx + 1) = buf.take idx ++ [v]
  | [], _, h => by simp at h
  | _ :: _, 0, _ => by simp
  | x :: xs, n + 1, h => by
    have ih := take_set_succ v xs n (by simpa using h)
    simp [ih]

theorem take_store {α : Type} (buf : List α) (idx : Nat) (v : α) :
    (store buf idx v).take (idx + 1) = buf.take idx ++ [v] := by
  unfold store
  split
  · next h => exact take_set_succ v buf idx h
  · next h =>
    have h1 : buf.length ≤ idx := Nat.le_of_not_lt h
    rw [List.take_of_length_le (by simp; omega), List.take_of_length_le h1]

theorem alreadyConnected_iff (a b : Room) :
    alreadyConnected a b = true ↔ b.name ∈ connNames a := by
  unfold alreadyConnected connNames
  rw [List.any_eq_true, List.mem_iff_getElem?]
  constructor
  · rintro ⟨i, hi, h⟩
    refine ⟨i, ?_⟩
    rw [List.mem_range] at hi
    rw [List.getElem?_take_of_lt hi]
    simpa using h
  · rintro ⟨i, h⟩
    have hi : i < a.connectionList.size := by
      by_contra hc
      rw [List.getElem?_take_eq_none (Nat.le_of_not_lt hc)] at h
      cases h
    refine ⟨i, List.mem_range.mpr hi, ?_⟩
    rw [List.getElem?_take_of_lt hi] at h
    simp [h]

theorem connNames_connectRooms (a b : Room) :
    connNames (connectRooms a b).1 = connNames a ++ [b.name]
    ∧ connNames (connectRooms a b).2 = connNames b ++ [a.name] := by
  simp only [connNames, connectRooms, take_store, and_self]

theorem createEdge_fail (a b : Room) (h : b.name ∈ connNames a ∨ b.connectionList.size = 6) :
    _createEdge a b = (a, b, 0) := by
  unfold _createEdge
  by_cases hc : alreadyConnected a b = true
  · rw [if_pos hc]
  · rw [if_neg hc]
    have : b.connectionList.size = 6 := by
      rcases h with h | h
      · exact absurd ((alreadyConnected_iff a b).mpr h) hc
      · exact h
    rw [if_pos this]

theorem createEdge_ok (a b : Room) (h1 : b.name ∉ connNames a) (h2 : b.connectionList.size ≠ 6) :
    (_createEdge a b).2.2 = 1
    ∧ (_createEdge a b).1.name = a.name ∧ (_createEdge a b).2.1.name = b.name
    ∧ (_createEdge a b).1.type = a.type ∧ (_createEdge a b).2.1.type = b.type
    ∧ connNames (_createEdge a b).1 = connNames a ++ [b.name]
    ∧ connNames (_createEdge a b).2.1 = connNames b ++ [a.name]
    ∧ (_createEdge a b).1.connectionList.size = a.connectionList.size + 1
    ∧ (_createEdge a b).2.1.connectionList.size = b.connectionList.size + 1
    ∧ (_createEdge a b).1.connectionList.capacity = a.connectionList.capacity
    ∧ (_createEdge a b).2.1.connectionList.capacity =
        (if b.connectionList.size = b.connectionList.capacity ∧ b.connectionList.size < 7
          then b.connectionList.capacity + 1 else b.connectionList.capacity) := by
  have hc : ¬ alreadyConnected a b = true := fun h => h1 ((alreadyConnected_iff a b).mp h)
  unfold _createEdge
  rw [if_neg hc, if_neg h2]
  split
  · next h =>
    refine ⟨rfl, rfl, rfl, rfl, rfl, ?_, ?_, rfl, rfl, rfl, rfl⟩
    · exact (connNames_connectRooms a _).1
    · exact (connNames_connectRooms a _).2
  · next h =>
    refine ⟨rfl, rfl, rfl, rfl, rfl, ?_, ?_, rfl, rfl, rfl, rfl⟩
    · exact (connNames_connectRooms a _).1
    · exact (connNames_connectRooms a _).2

theorem createEdge_ret (a b : Room) :
    ((_createEdge a b).2.2 = 0 ∧ (b.name ∈ connNames a ∨ b.connectionList.size = 6))
    ∨ ((_createEdge a b).2.2 = 1 ∧ b.name ∉ connNames a ∧ b.connectionList.size ≠ 6) := by
  by_cases h : b.name ∈ connNames a ∨ b.connectionList.size = 6
  · left
    exact ⟨by rw [createEdge_fail a b h], h⟩
  · right
    rw [not_or] at h
    exact ⟨(createEdge_ok a b h.1 h.2).1, h.1, h.2⟩

/-! ### The array `rooms` -/

theorem roomAt_set (rooms : List Room) (i k : Nat) (x : Room) (hi : i < rooms.length) :
    roomAt (rooms.set i x) k = if k = i then x else roomAt rooms k := by
  unfold roomAt
  rw [List.getD_eq_getElem?_getD, List.getD_eq_getElem?_getD, List.getElem?_set]
  by_cases h : k = i
  · subst h
    simp [hi]
  · have h' : ¬ i = k := fun e => h e.symm
    simp [h, h']

theorem createEdgeAt_length (rooms : List Room) (i c : Nat) :
    (createEdgeAt rooms i c).1.length = rooms.length := by
  simp [createEdgeAt]

theorem roomAt_createEdgeAt (rooms : List Room) (i c k : Nat)
    (hi : i < rooms.length) (hc : c < rooms.length) :
    roomAt (createEdgeAt rooms i c).1 k =
      if k = c then (_createEdge (roomAt rooms i) (roomAt rooms c)).2.1
      else if k = i then (_createEdge (roomAt rooms i) (roomAt rooms c)).1
      else roomAt rooms k := by
  unfold createEdgeAt
  simp only
  rw [roomAt_set _ _ _ _ (by simpa using hc), roomAt_set _ _ _ _ hi]

theorem createEdgeAt_ret (rooms : List Room) (i c : Nat) :
    (createEdgeAt rooms i c).2 = (_createEdge (roomAt rooms i) (roomAt rooms c)).2.2 := rfl

/-- A rejected call leaves every room as it was. -/
theorem roomAt_createEdgeAt_fail (rooms : List Room) (i c k : Nat)
    (hi : i < rooms.length) (hc : c < rooms.length)
    (h : (createEdgeAt rooms i c).2 = 0) :
    roomAt (createEdgeAt rooms i c).1 k = roomAt rooms k := by
  rw [roomAt_createEdgeAt rooms i c k hi hc]
  rw [createEdgeAt_ret] at h
  rcases createEdge_ret (roomAt rooms i) (roomAt rooms c) with ⟨_, hf⟩ | ⟨h1, _⟩
  · rw [createEdge_fail _ _ hf]
    by_cases hkc : k = c
    · rw [if_pos hkc, hkc]
    · rw [if_neg hkc]
      by_cases hki : k = i
      · rw [if_pos hki, hki]
      · rw [if_neg hki]
  · rw [h1] at h
    exact absurd h (by decide)

/-- The rooms after a successful call between two different slots. -/
theorem roomAt_createEdgeAt_ok (rooms : List Room) (i c k : Nat)
    (hi : i < rooms.length) (hc : c < rooms.length) (hne : c ≠ i)
    (h : (createEdgeAt rooms i c).2 ≠ 0) :
    (roomAt rooms c).name ∉ connNames (roomAt rooms i)
    ∧ (roomAt rooms c).connectionList.size ≠ 6
    ∧ (roomAt (createEdgeAt rooms i c).1 k).name = (roomAt rooms k).name
    ∧ (roomAt (createEdgeAt rooms i c).1 k).type = (roomAt rooms k).type
    ∧ connNames (roomAt (createEdgeAt rooms i c).1 k) =
        connNames (roomAt rooms k) ++
          (if k = i then [(roomAt rooms c).name]
           else if k = c then [(roomAt rooms i).name] else [])
    ∧ (roomAt (createEdgeAt rooms i c).1 k).connectionList.size =
        (roomAt rooms k).connectionList.size + (if k = i ∨ k = c then 1 else 0)
    ∧ (roomAt (createEdgeAt rooms i c).1 k).connectionList.capacity =
        (if k = c ∧ (roomAt rooms c).connectionList.size = (roomAt rooms c).connectionList.capacity
            ∧ (roomAt rooms c).connectionList.size < 7
          then (roomAt rooms k).connectionList.capacity + 1
          else (roomAt rooms k).connectionList.capacity) := by
  rw [createEdgeAt_ret] at h
  rcases createEdge_ret (roomAt rooms i) (roomAt rooms c) with ⟨h0, _⟩ | ⟨_, h1, h2⟩
  · exact absurd h0 h
  · obtain ⟨_, n1, n2, t1, t2, c1, c2, s1, s2, p1, p2⟩ := createEdge_ok _ _ h1 h2
    refine ⟨h1, h2, ?_⟩
    rw [roomAt_createEdgeAt rooms i c k hi hc]
    by_cases hkc : k = c
    · subst hkc
      rw [if_pos rfl]
      simp only [hne, if_false, if_true, true_and, or_true]
      exact ⟨n2, t2, c2, s2, p2⟩
    · rw [if_neg hkc]
      by_cases hki : k = i
      · subst hki
        rw [if_pos rfl]
        simp only [hkc, if_false, if_true, false_and, true_or]
        exact ⟨n1, t1, c1, s1, p1⟩
      · rw [if_neg hki]
        simp [hkc, hki]

/-! ### The graph invariant is kept by every call the loop can issue -/

theorem GraphInv.congr {rooms rooms' : List Room} (h : GraphInv rooms)
    (hlen : rooms'.length = rooms.length) (heq : ∀ k, roomAt rooms' k = roomAt rooms k) :
    GraphInv rooms' := by
  refine ⟨hlen.trans h.len, ?_, ?_, ?_, ?_, ?_, ?_, ?_⟩
  · intro k hk l hl; rw [heq k, heq l]; exact h.inj k hk l hl
  · intro k hk; rw [heq k]; exact h.card k hk
  · intro k hk; rw [heq k]; exact h.bounds k hk
  · intro k hk p hp
    rw [heq k] at hp
    obtain ⟨l, hl, e⟩ := h.closed k hk p hp
    exact ⟨l, hl, by rw [heq l]; exact e⟩
  · intro k hk l hl; rw [heq k, heq l]; exact h.symm k hk l hl
  · intro k hk; rw [heq k]; exact h.noself k hk
  · intro k hk; rw [heq k]; exact h.nodup k hk

theorem createEdgeAt_graphInv {rooms : List Room} (h : GraphInv rooms) (i c : Nat)
    (hi : i < 7) (hc : c < 7) (hne : c ≠ i)
    (hsz : (roomAt rooms i).connectionList.size < (roomAt rooms i).connectionList.capacity) :
    GraphInv (createEdgeAt rooms i c).1 := by
  have hil : i < rooms.length := by rw [h.len]; exact hi
  have hcl : c < rooms.length := by rw [h.len]; exact hc
  by_cases hret : (createEdgeAt rooms i c).2 = 0
  · exact h.congr (createEdgeAt_length rooms i c)
      (fun k => roomAt_createEdgeAt_fail rooms i c k hil hcl hret)
  · have key := fun k => roomAt_createEdgeAt_ok rooms i c k hil hcl hne hret
    obtain ⟨hnot, hsix, -⟩ := key 0
    have hN : ∀ k, (roomAt (createEdgeAt rooms i c).1 k).name = (roomAt rooms k).name :=
      fun k => (key k).2.2.1
    have hC := fun k => (key k).2.2.2.2.1
    have hS := fun k => (key k).2.2.2.2.2.1
    have hP := fun k => (key k).2.2.2.2.2.2
    have hnot' : (roomAt rooms i).name ∉ connNames (roomAt rooms c) :=
      fun hm => hnot (h.symm c hc i hi hm)
    have hnn : (roomAt rooms c).name ≠ (roomAt rooms i).name :=
      fun e => hne (h.inj c hc i hi e)
    refine ⟨(createEdgeAt_length rooms i c).trans h.len, ?_, ?_, ?_, ?_, ?_, ?_, ?_⟩
    · intro k hk l hl
      rw [hN k, hN l]
      exact h.inj k hk l hl
    · intro k hk
      rw [hC k, hS k, List.length_append, h.card k hk]
      by_cases hki : k = i
      · simp [hki]
      · by_cases hkc : k = c
        · subst hkc
          simp [hki]
        · simp [hki, hkc]
    · intro k hk
      rw [hS k, hP k]
      have hb := h.bounds k hk
      by_cases hkc : k = c
      · subst hkc
        have hki : ¬ k = i := hne
        simp only [hki, false_or, if_true, true_and]
        split
        · next hh => omega
        · next hh => omega
      · by_cases hki : k = i
        · subst hki
          simp only [hkc, false_and, if_false, true_or, if_true]
          omega
        · simp only [hkc, hki, false_and, if_false, false_or]
          omega
    · intro k hk p hp
      rw [hC k, List.mem_append] at hp
      rcases hp with hp | hp
      · obtain ⟨l, hl, e⟩ := h.closed k hk p hp
        exact ⟨l, hl, by rw [hN l]; exact e⟩
      · by_cases hki : k = i
        · rw [if_pos hki, List.mem_singleton] at hp
          exact ⟨c, hc, by rw [hN c]; exact hp.symm⟩
        · rw [if_neg hki] at hp
          by_cases hkc : k = c
          · rw [if_pos hkc, List.mem_singleton] at hp
            exact ⟨i, hi, by rw [hN i]; exact hp.symm⟩
          · rw [if_neg hkc] at hp
            cases hp
    · intro k hk l hl hm
      rw [hN l, hC k, List.mem_append] at hm
      rw [hN k, hC l, List.mem_append]
      rcases hm with hm | hm
      · exact Or.inl (h.symm k hk l hl hm)
      · right
        by_cases hki : k = i
        · rw [if_pos hki, List.mem_singleton] at hm
          have hlc : l = c := h.inj l hl c hc hm
          have hli : ¬ l = i := by rw [hlc]; exact hne
          rw [if_neg hli, if_pos hlc, hki]
          exact List.mem_singleton.mpr rfl
        · rw [if_neg hki] at hm
          by_cases hkc : k = c
          · rw [if_pos hkc, List.mem_singleton] at hm
            have hli : l = i := h.inj l hl i hi hm
            rw [if_pos hli, hkc]
            exact List.mem_singleton.mpr rfl
          · rw [if_neg hkc] at hm
            cases hm
    · intro k hk hm
      rw [hN k, hC k, List.mem_append] at hm
      rcases hm with hm | hm
      · exact h.noself k hk hm
      · by_cases hki : k = i
        · rw [if_pos hki, List.mem_singleton, hki] at hm
          exact hnn hm.symm
        · rw [if_neg hki] at hm
          by_cases hkc : k = c
          · rw [if_pos hkc, List.mem_singleton, hkc] at hm
            exact hnn hm
          · rw [if_neg hkc] at hm
            cases hm
    · intro k hk
      rw [hC k]
      by_cases hki : k = i
      · rw [if_pos hki, hki]
        exact List.Nodup.append (h.nodup i hi) (List.nodup_singleton _)
          (fun x hx hx' => hnot (by rw [List.mem_singleton] at hx'; rw [← hx']; exact hx))
      · rw [if_neg hki]
        by_cases hkc : k = c
        · rw [if_pos hkc, hkc]
          exact List.Nodup.append (h.nodup c hc) (List.nodup_singleton _)
            (fun x hx hx' => hnot' (by rw [List.mem_singleton] at hx'; rw [← hx']; exact hx))
        · rw [if_neg hkc, List.append_nil]
          exact h.nodup k hk

/-! ### Room selection -/

theorem checkChosen_eq (x : Int) :
    ∀ (l : List Int) (r : Int), l ≠ [] → checkChosen x l r = if x ∈ l then 1 else 0
  | [], _, h => absurd rfl h
  | c :: cs, r, _ => by
    unfold checkChosen
    by_cases hx : x = c
    · simp [hx]
    · rw [if_neg hx]
      cases cs with
      | nil => simp [checkChosen, hx]
      | cons d ds =>
        rw [checkChosen_eq x (d :: ds) 0 (by simp)]
        simp [hx]

theorem numConnections_bounds (d : Nat) : 3 ≤ numConnections d ∧ numConnections d ≤ 6 := by
  unfold numConnections
  have : d % 7 < 7 := Nat.mod_lt _ (by decide)
  simp only
  split <;> omega

theorem selectionStart_inv : SelInv 0 selectionStart := by
  refine ⟨by simp [selectionStart], by simp [selectionStart], by omega, by simp [selectionStart],
    by simp, by simp, ?_⟩
  intro k hk
  omega

/-- While `i < 7` a drawn bank index is rejected exactly when it has been chosen. -/
theorem SelInv.checkChosen {i : Nat} {s : Selection} (h : SelInv i s) (b : Nat) :
    checkChosen (b : Int) s.roomsChosen s.rerandom
      = if (b : Int) ∈ s.roomsChosen.take i then 1 else 0 := by
  have hne : s.roomsChosen ≠ [] := by
    intro e
    have := h.clen
    rw [e] at this
    simp at this
  rw [checkChosen_eq _ _ _ hne]
  have hmem : (b : Int) ∈ s.roomsChosen ↔ (b : Int) ∈ s.roomsChosen.take i := by
    constructor
    · intro hm
      rw [← List.take_append_drop i s.roomsChosen, List.mem_append] at hm
      rcases hm with hm | hm
      · exact hm
      · rw [h.unset, List.mem_replicate] at hm
        omega
    · exact fun hm => List.mem_of_mem_take hm
  by_cases hb : (b : Int) ∈ s.roomsChosen.take i
  · rw [if_pos hb, if_pos (hmem.mpr hb)]
  · rw [if_neg hb, if_neg (fun hm => hb (hmem.mp hm))]

/-- Accepting a bank index that has not been chosen keeps the invariant. -/
theorem SelInv.accept {i : Nat} {s : Selection} (h : SelInv i s) (hi : i < 7) (b : Nat)
    (hb10 : b < 10) (hb : (b : Int) ∉ s.roomsChosen.take i) (numConns : Nat)
    (hn : 3 ≤ numConns ∧ numConns ≤ 6) (fresh : CString) (rr : Int) :
    SelInv (i + 1)
      { rooms := s.rooms.set i (_createRoom b numConns fresh),
        roomsChosen := s.roomsChosen.set i (b : Int),
        rerandom := rr } := by
  have hil : i < s.roomsChosen.length := by rw [h.clen]; exact hi
  have hir : i < s.rooms.length := by rw [h.rlen]; exact hi
  have htake : (s.roomsChosen.set i (b : Int)).take (i + 1) = s.roomsChosen.take i ++ [(b : Int)] :=
    take_set_succ _ _ _ hil
  refine ⟨by simp [h.rlen], by simp [h.clen], by omega, ?_, ?_, ?_, ?_⟩
  · show (s.roomsChosen.set i (b : Int)).drop (i + 1) = _
    rw [List.drop_set_of_lt _ _ (Nat.lt_succ_self i)]
    have : s.roomsChosen.drop (i + 1) = (s.roomsChosen.drop i).drop 1 := by
      rw [List.drop_drop]
    rw [this, h.unset]
    have e : 7 - i = (7 - (i + 1)) + 1 := by omega
    rw [e]
    simp [List.replicate_succ]
  · show ((s.roomsChosen.set i (b : Int)).take (i + 1)).Nodup
    rw [htake]
    exact List.Nodup.append h.nodup (List.nodup_singleton _)
      (fun x hx hx' => hb (by rw [List.mem_singleton] at hx'; rw [← hx']; exact hx))
  · intro c hc
    change c ∈ (s.roomsChosen.set i (b : Int)).take (i + 1) at hc
    rw [htake, List.mem_append, List.mem_singleton] at hc
    rcases hc with hc | hc
    · exact h.range c hc
    · subst hc
      omega
  · intro k hk
    show ((roomAt (s.rooms.set i _) k).name : Int) = (s.roomsChosen.set i (b : Int)).getD k (-1) ∧ _
    rw [roomAt_set _ _ _ _ hir]
    by_cases hki : k = i
    · subst hki
      rw [if_pos rfl]
      refine ⟨?_, rfl, rfl, hn.1, hn.2⟩
      rw [List.getD_eq_getElem?_getD, List.getElem?_set_self hil]
      rfl
    · rw [if_neg hki]
      have hlt : k < i := by omega
      obtain ⟨r1, r2⟩ := h.room k hlt
      refine ⟨?_, r2⟩
      rw [r1, List.getD_eq_getElem?_getD, List.getD_eq_getElem?_getD,
        List.getElem?_set_ne (fun e => hki e.symm)]

theorem bankDraws_nil : bankDraws [] = [] := rfl

theorem bankDraws_cons (d1 d2 : Nat) (rest : List Nat) :
    bankDraws (d1 :: d2 :: rest) = ((d1 % 10 : Nat) : Int) :: bankDraws rest := rfl

theorem eraseDups_loop_mem (x : Int) (l bs : List Int) (h : x ∈ bs) :
    List.eraseDups.loop (x :: l) bs.reverse = List.eraseDups.loop l bs.reverse := by
  have e : List.elem x bs.reverse = true := by simp [h]
  rw [List.eraseDups.loop, e]

theorem eraseDups_loop_not_mem (x : Int) (l bs : List Int) (h : x ∉ bs) :
    List.eraseDups.loop (x :: l) bs.reverse = List.eraseDups.loop l (bs ++ [x]).reverse := by
  have e : List.elem x bs.reverse = false := by simp [h]
  rw [List.eraseDups.loop, e]
  simp

theorem SelInv.finish {s : Selection} (h : SelInv 7 s) :
    List.eraseDups.loop [] (s.roomsChosen.take 7).reverse = s.roomsChosen := by
  rw [List.eraseDups.loop, List.reverse_reverse, List.take_of_length_le (by rw [h.clen])]

/-- The selection loop keeps its invariant, and the indices it records are the
first occurrences among the bank indices it drew, in the order drawn. -/
theorem selectRooms_spec (fresh : Nat → CString) :
    ∀ (n : Nat) (draws : List Nat), draws.length ≤ n →
      ∀ (i : Nat) (s s' : Selection) (rest : List Nat), SelInv i s →
        selectRooms fresh draws i s = some (s', rest) →
        SelInv 7 s' ∧ ∃ used, draws = used ++ rest ∧
          s'.roomsChosen = List.eraseDups.loop (bankDraws used) (s.roomsChosen.take i).reverse := by
  intro n
  induction n with
  | zero =>
    intro draws hlen i s s' rest hinv hrun
    have hd : draws = [] := List.length_eq_zero.mp (Nat.le_zero.mp hlen)
    subst hd
    unfold selectRooms at hrun
    split at hrun
    · cases hrun
    · cases hrun
      have : i = 7 := by have := hinv.ile; omega
      subst this
      exact ⟨hinv, [], rfl, by rw [bankDraws_nil, hinv.finish]⟩
  | succ n ih =>
    intro draws hlen i s s' rest hinv hrun
    match draws, hlen, hrun with
    | [], _, hrun =>
      unfold selectRooms at hrun
      split at hrun
      · cases hrun
      · cases hrun
        have : i = 7 := by have := hinv.ile; omega
        subst this
        exact ⟨hinv, [], rfl, by rw [bankDraws_nil, hinv.finish]⟩
    | [d], _, hrun =>
      unfold selectRooms at hrun
      split at hrun
      · cases hrun
      · cases hrun
        have : i = 7 := by have := hinv.ile; omega
        subst this
        exact ⟨hinv, [], rfl, by rw [bankDraws_nil, hinv.finish]⟩
    | d1 :: d2 :: rest0, hlen, hrun =>
      unfold selectRooms at hrun
      by_cases hi : i < 7
      · rw [if_pos hi] at hrun
        simp only at hrun
        rw [hinv.checkChosen (d1 % 10)] at hrun
        have hlen0 : rest0.length ≤ n := by simp at hlen; omega
        by_cases hb : ((d1 % 10 : Nat) : Int) ∈ s.roomsChosen.take i
        · rw [if_pos hb, if_neg (by decide)] at hrun
          have hinv1 : SelInv i { s with rerandom := 1 } :=
            ⟨hinv.rlen, hinv.clen, hinv.ile, hinv.unset, hinv.nodup, hinv.range, hinv.room⟩
          obtain ⟨h7, used, hu, hc⟩ := ih rest0 hlen0 i _ s' rest hinv1 hrun
          refine ⟨h7, d1 :: d2 :: used, by rw [hu]; rfl, ?_⟩
          rw [hc, bankDraws_cons, eraseDups_loop_mem _ _ _ hb]
        · rw [if_neg hb, if_pos rfl] at hrun
          have hinv1 := hinv.accept hi (d1 % 10) (Nat.mod_lt _ (by decide)) hb
            (numConnections d2) (numConnections_bounds d2) (fresh i) 0
          obtain ⟨h7, used, hu, hc⟩ := ih rest0 hlen0 (i + 1) _ s' rest hinv1 hrun
          refine ⟨h7, d1 :: d2 :: used, by rw [hu]; rfl, ?_⟩
          have hil : i < s.roomsChosen.length := by rw [hinv.clen]; exact hi
          rw [hc, bankDraws_cons, eraseDups_loop_not_mem _ _ _ hb]
          show List.eraseDups.loop _ ((s.roomsChosen.set i _).take (i + 1)).reverse = _
          rw [take_set_succ _ _ _ hil]
      · rw [if_neg hi] at hrun
        cases hrun
        have : i = 7 := by have := hinv.ile; omega
        subst this
        exact ⟨hinv, [], rfl, by rw [bankDraws_nil, hinv.finish]⟩

theorem SelInv.connNames {s : Selection} (h : SelInv 7 s) (k : Nat) (hk : k < 7) :
    connNames (roomAt s.rooms k) = [] := by
  unfold Adventure.connNames
  rw [(h.room k hk).2.2.1]
  exact List.take_nil

theorem SelInv.names_inj {s : Selection} (h : SelInv 7 s) (k : Nat) (hk : k < 7) (l : Nat)
    (hl : l < 7) (e : (roomAt s.rooms k).name = (roomAt s.rooms l).name) : k = l := by
  have hk' : k < s.roomsChosen.length := by rw [h.clen]; exact hk
  have hl' : l < s.roomsChosen.length := by rw [h.clen]; exact hl
  have e1 : s.roomsChosen.getD k (-1) = s.roomsChosen.getD l (-1) := by
    rw [← (h.room k hk).1, ← (h.room l hl).1, e]
  rw [List.getD_eq_getElem _ _ hk', List.getD_eq_getElem _ _ hl'] at e1
  have hnd : s.roomsChosen.Nodup := by
    have := h.nodup
    rwa [List.take_of_length_le (by rw [h.clen])] at this
  exact (List.Nodup.getElem_inj_iff hnd).mp e1

/-- The rooms the selection loop leaves behind satisfy the graph invariant. -/
theorem SelInv.graphInv {s : Selection} (h : SelInv 7 s) : GraphInv s.rooms := by
  refine ⟨h.rlen, h.names_inj, ?_, ?_, ?_, ?_, ?_, ?_⟩
  · intro k hk
    rw [h.connNames k hk, (h.room k hk).2.1]
    rfl
  · intro k hk
    obtain ⟨_, h2, _, h4, h5⟩ := h.room k hk
    omega
  · intro k hk p hp
    rw [h.connNames k hk] at hp
    cases hp
  · intro k hk l _ hm
    rw [h.connNames k hk] at hm
    cases hm
  · intro k hk hm
    rw [h.connNames k hk] at hm
    cases hm
  · intro k hk
    rw [h.connNames k hk]
    exact List.nodup_nil

/-! ### The edge construction loop -/

theorem nextRoom_rooms (rooms : List Room) :
    ∀ (n i : Nat), (nextRoom rooms n i).rooms = rooms
  | 0, _ => rfl
  | n + 1, i => by
    unfold nextRoom
    simp only
    split
    · exact nextRoom_rooms rooms n (i + 1)
    · rfl

theorem nextRoom_inv {rooms : List Room} (h : GraphInv rooms) :
    ∀ (n i : Nat), i + n = 7 →
      (∀ k < i, (roomAt rooms k).connectionList.size = (roomAt rooms k).connectionList.capacity) →
      LoopInv (nextRoom rooms n i)
  | 0, i, hin, hfin => by
    unfold nextRoom
    exact ⟨h, by simp only; omega, hfin, fun hi => by simp only at hi; omega⟩
  | n + 1, i, hin, hfin => by
    unfold nextRoom
    simp only
    have hb := h.bounds i (by omega)
    split
    · next hlt =>
      refine nextRoom_inv h n (i + 1) (by omega) ?_
      intro k hk
      by_cases hki : k = i
      · subst hki
        omega
      · exact hfin k (by omega)
    · next hge =>
      exact ⟨h, by simp only; omega, hfin, fun _ => ⟨le_refl _, by simp only; omega, by simp⟩⟩

theorem candidate_some {s : EdgeLoop} {r c : Nat} (h : candidate s r = some c) :
    s.i < 7 ∧ c < 7 ∧ c ≠ s.i ∧ c = r % 7 := by
  unfold candidate at h
  split at h
  · next hi =>
    simp only at h
    split at h
    · cases h
    · next hne =>
      cases h
      exact ⟨hi, Nat.mod_lt _ (by decide), hne, rfl⟩
  · cases h

theorem edgeStep_inv {s : EdgeLoop} (h : LoopInv s) (r : Nat) : LoopInv (edgeStep s r) := by
  unfold edgeStep
  split
  · exact h
  · next c hcand =>
    obtain ⟨hi, hc, hne, -⟩ := candidate_some hcand
    obtain ⟨hj0, hj1, hdiff⟩ := h.cur hi
    have hsz : (roomAt s.rooms s.i).connectionList.size
        < (roomAt s.rooms s.i).connectionList.capacity := by omega
    have hg := createEdgeAt_graphInv h.graph s.i c hi hc hne hsz
    have hil : s.i < s.rooms.length := by rw [h.graph.len]; exact hi
    have hcl : c < s.rooms.length := by rw [h.graph.len]; exact hc
    simp only
    split
    · next hret =>
      have heq := fun k => roomAt_createEdgeAt_fail s.rooms s.i c k hil hcl hret
      refine ⟨hg, h.ile, ?_, ?_⟩
      · intro k hk
        show (roomAt (createEdgeAt s.rooms s.i c).1 k).connectionList.size = _
        rw [heq k]
        exact h.finished k hk
      · intro _
        show _ ∧ _ ∧ ((roomAt (createEdgeAt s.rooms s.i c).1 s.i).connectionList.capacity : Int) - _ = _
        rw [heq s.i]
        exact ⟨hj0, hj1, hdiff⟩
    · next hret =>
      have key := fun k => roomAt_createEdgeAt_ok s.rooms s.i c k hil hcl hne hret
      have hsix := (key 0).2.1
      have hS := fun k => (key k).2.2.2.2.2.1
      have hP := fun k => (key k).2.2.2.2.2.2
      have hfin : ∀ k < s.i, (roomAt (createEdgeAt s.rooms s.i c).1 k).connectionList.size
          = (roomAt (createEdgeAt s.rooms s.i c).1 k).connectionList.capacity := by
        intro k hk
        rw [hS k, hP k]
        have hf := h.finished k hk
        have hki : ¬ k = s.i := by omega
        by_cases hkc : k = c
        · subst hkc
          have hb := h.graph.bounds k (by omega)
          have hlt : (roomAt s.rooms k).connectionList.size < 7 := by omega
          simp only [hki, false_or, if_true, true_and, hf, hlt]
          rw [hf] at hlt
          simp [hlt]
        · simp only [hki, hkc, false_or, if_false, false_and]
          omega
      have hsi : (roomAt (createEdgeAt s.rooms s.i c).1 s.i).connectionList.size
          = (roomAt s.rooms s.i).connectionList.size + 1 := by
        rw [hS s.i]
        simp
      have hpi : (roomAt (createEdgeAt s.rooms s.i c).1 s.i).connectionList.capacity
          = (roomAt s.rooms s.i).connectionList.capacity := by
        rw [hP s.i]
        have : ¬ s.i = c := fun e => hne e.symm
        simp [this]
      split
      · next hlt =>
        refine ⟨hg, h.ile, hfin, ?_⟩
        intro _
        show _ ∧ _ ∧ ((roomAt (createEdgeAt s.rooms s.i c).1 s.i).connectionList.capacity : Int) - _ = _
        rw [hsi, hpi]
        refine ⟨?_, hlt, ?_⟩
        · show 0 ≤ s.j + 1
          omega
        · show _ = s.connsToAdd - (s.j + 1)
          push_cast
          omega
      · next hge =>
        refine nextRoom_inv hg (6 - s.i) (s.i + 1) (by omega) ?_
        intro k hk
        by_cases hki : k = s.i
        · rw [hki, hsi, hpi]
          omega
        · exact hfin k (by omega)

theorem runEdges_inv : ∀ (draws : List Nat) (s : EdgeLoop), LoopInv s → LoopInv (runEdges s draws).1
  | [], _, h => h
  | r :: rest, s, h => by
    unfold runEdges
    split
    · exact runEdges_inv rest _ (edgeStep_inv h r)
    · exact h

/-- Every state that generation reaches satisfies the loop invariant. -/
theorem generate_inv {fresh : Nat → CString} {draws rest : List Nat} {s : EdgeLoop}
    (h : generate fresh draws = some (s, rest)) : LoopInv s := by
  unfold generate at h
  split at h
  · cases h
  · next sel rest0 hsel =>
    have hs := (selectRooms_spec fresh draws.length draws (le_refl _) 0 selectionStart sel rest0
      selectionStart_inv hsel).1
    have h0 := nextRoom_inv hs.graphInv 7 0 (by omega) (fun k hk => absurd hk (Nat.not_lt_zero k))
    have := runEdges_inv rest0 _ h0
    simp only [Option.some.injEq] at h
    rw [h] at this
    exact this

/-! ### Counting the other rooms -/

theorem otherNames_length (rooms : List Room) (c : Nat) (hc : c < 7) :
    (otherNames rooms c).length = 6 := by
  unfold otherNames
  rw [List.length_map]
  interval_cases c <;> rfl

theorem mem_otherNames {rooms : List Room} {c : Nat} {p : NamePtr} :
    p ∈ otherNames rooms c ↔ ∃ l, l < 7 ∧ l ≠ c ∧ (roomAt rooms l).name = p := by
  unfold otherNames
  simp only [List.mem_map, List.mem_filter, List.mem_range, decide_eq_true_eq]
  constructor
  · rintro ⟨l, ⟨h1, h2⟩, h3⟩
    exact ⟨l, h1, h2, h3⟩
  · rintro ⟨l, h1, h2, h3⟩
    exact ⟨l, ⟨h1, h2⟩, h3⟩

theorem otherNames_nodup {rooms : List Room} (h : GraphInv rooms) (c : Nat) :
    (otherNames rooms c).Nodup := by
  unfold otherNames
  refine List.Nodup.map_on ?_ ((List.nodup_range 7).filter _)
  intro x hx y hy e
  rw [List.mem_filter, List.mem_range] at hx hy
  exact h.inj x hx.1 y hy.1 e

/-- A room with fewer than six connections misses one of the other rooms. -/
theorem exists_unconnected {rooms : List Room} (h : GraphInv rooms) (i : Nat) (hi : i < 7)
    (hsz : (roomAt rooms i).connectionList.size < 6) :
    ∃ c, c < 7 ∧ c ≠ i ∧ (roomAt rooms c).name ∉ connNames (roomAt rooms i) := by
  by_contra hcon
  have hall : otherNames rooms i ⊆ connNames (roomAt rooms i) := by
    intro p hp
    obtain ⟨l, hl, hli, e⟩ := mem_otherNames.mp hp
    by_contra hp'
    exact hcon ⟨l, hl, hli, by rw [e]; exact hp'⟩
  have hle := ((otherNames_nodup h i).subperm hall).length_le
  rw [otherNames_length rooms i hi, h.card i hi] at hle
  omega

/-- A room with six connections is connected to every other room. -/
theorem full_room_connected {rooms : List Room} (h : GraphInv rooms) (c : Nat) (hc : c < 7)
    (hsz : (roomAt rooms c).connectionList.size = 6) (l : Nat) (hl : l < 7) (hlc : l ≠ c) :
    (roomAt rooms l).name ∈ connNames (roomAt rooms c) := by
  have hsub : connNames (roomAt rooms c) ⊆ otherNames rooms c := by
    intro p hp
    obtain ⟨m, hm, e⟩ := h.closed c hc p hp
    refine mem_otherNames.mpr ⟨m, hm, ?_, e⟩
    intro hmc
    subst hmc
    exact h.noself m hc (by rw [e]; exact hp)
  have hperm := ((h.nodup c hc).subperm hsub).perm_of_length_le
    (by rw [otherNames_length rooms c hc, h.card c hc, hsz])
  exact hperm.symm.subset (mem_otherNames.mpr ⟨l, hl, hlc, rfl⟩)

/-- A room below its capacity has a candidate that `_createEdge` accepts. -/
theorem exists_candidate {rooms : List Room} (h : GraphInv rooms) (i : Nat) (hi : i < 7)
    (hsz : (roomAt rooms i).connectionList.size < (roomAt rooms i).connectionList.capacity) :
    ∃ c, c < 7 ∧ c ≠ i ∧ (_createEdge (roomAt rooms i) (roomAt rooms c)).2.2 = 1 := by
  have hb := h.bounds i hi
  obtain ⟨c, hc, hci, hnot⟩ := exists_unconnected h i hi (by omega)
  refine ⟨c, hc, hci, (createEdge_ok _ _ hnot ?_).1⟩
  intro hsix
  exact hnot (h.symm c hc i hi (full_room_connected h c hc hsix i hi (fun e => hci e.symm)))

/-! ### Generation can always be completed -/

theorem totalSize_le {rooms : List Room} (h : GraphInv rooms) : totalSize rooms ≤ 42 := by
  unfold totalSize
  have : ∀ k ∈ Finset.range 7, (roomAt rooms k).connectionList.size ≤ 6 := by
    intro k hk
    have := h.bounds k (Finset.mem_range.mp hk)
    omega
  have hs := Finset.sum_le_sum this
  simpa using hs

theorem sum_two_slots : ∀ i < 7, ∀ c < 7, c ≠ i →
    (∑ k in Finset.range 7, if k = i ∨ k = c then 1 else 0) = 2 := by
  decide

theorem totalSize_createEdgeAt {rooms : List Room} (i c : Nat) (hi : i < 7) (hc : c < 7)
    (hil : i < rooms.length) (hcl : c < rooms.length) (hne : c ≠ i)
    (hret : (createEdgeAt rooms i c).2 ≠ 0) :
    totalSize (createEdgeAt rooms i c).1 = totalSize rooms + 2 := by
  unfold totalSize
  have hS := fun k => (roomAt_createEdgeAt_ok rooms i c k hil hcl hne hret).2.2.2.2.2.1
  rw [Finset.sum_congr rfl (fun k _ => hS k), Finset.sum_add_distrib, sum_two_slots i hi c hc hne]

/-- From a state in which a room still needs a connection, some draw adds an edge. -/
theorem edgeStep_progress {s : EdgeLoop} (h : LoopInv s) (hi : s.i < 7) :
    ∃ r, totalSize (edgeStep s r).rooms = totalSize s.rooms + 2 := by
  obtain ⟨_, _, hdiff⟩ := h.cur hi
  obtain ⟨hj0, hj1, -⟩ := h.cur hi
  have hsz : (roomAt s.rooms s.i).connectionList.size
      < (roomAt s.rooms s.i).connectionList.capacity := by omega
  obtain ⟨c, hc, hci, hok⟩ := exists_candidate h.graph s.i hi hsz
  have hil : s.i < s.rooms.length := by rw [h.graph.len]; exact hi
  have hcl : c < s.rooms.length := by rw [h.graph.len]; exact hc
  have hret : (createEdgeAt s.rooms s.i c).2 ≠ 0 := by
    rw [createEdgeAt_ret, hok]
    decide
  have hcand : candidate s c = some c := by
    unfold candidate
    rw [if_pos hi]
    simp only
    rw [Nat.mod_eq_of_lt hc, if_neg hci]
  refine ⟨c, ?_⟩
  rw [← totalSize_createEdgeAt s.i c hi hc hil hcl hci hret]
  unfold edgeStep
  rw [hcand]
  simp only
  rw [if_neg hret]
  split
  · rfl
  · rw [nextRoom_rooms]

theorem can_finish : ∀ (m : Nat) (s : EdgeLoop), LoopInv s → 42 - totalSize s.rooms ≤ m →
    ∃ more, (runEdges s more).1.i = 7
  | 0, s, h, hm => by
    by_cases hi : s.i < 7
    · obtain ⟨r, hr⟩ := edgeStep_progress h hi
      have := totalSize_le (edgeStep_inv h r).graph
      omega
    · exact ⟨[], by have := h.ile; show s.i = 7; omega⟩
  | m + 1, s, h, hm => by
    by_cases hi : s.i < 7
    · obtain ⟨r, hr⟩ := edgeStep_progress h hi
      have hle := totalSize_le (edgeStep_inv h r).graph
      obtain ⟨more, hmore⟩ := can_finish m (edgeStep s r) (edgeStep_inv h r) (by omega)
      refine ⟨r :: more, ?_⟩
      unfold runEdges
      rw [if_pos hi]
      exact hmore
    · exact ⟨[], by have := h.ile; show s.i = 7; omega⟩

/-! ### The type buffers are left alone by generation -/

theorem createEdge_type (a b : Room) :
    (_createEdge a b).1.type = a.type ∧ (_createEdge a b).2.1.type = b.type := by
  rcases createEdge_ret a b with ⟨_, hf⟩ | ⟨_, h1, h2⟩
  · rw [createEdge_fail a b hf]
    exact ⟨rfl, rfl⟩
  · obtain ⟨_, _, _, t1, t2, _⟩ := createEdge_ok a b h1 h2
    exact ⟨t1, t2⟩

theorem createEdgeAt_type (rooms : List Room) (i c k : Nat)
    (hi : i < rooms.length) (hc : c < rooms.length) :
    (roomAt (createEdgeAt rooms i c).1 k).type = (roomAt rooms k).type := by
  rw [roomAt_createEdgeAt rooms i c k hi hc]
  by_cases hkc : k = c
  · rw [if_pos hkc, hkc]
    exact (createEdge_type _ _).2
  · rw [if_neg hkc]
    by_cases hki : k = i
    · rw [if_pos hki, hki]
      exact (createEdge_type _ _).1
    · rw [if_neg hki]

theorem edgeStep_type {s : EdgeLoop} (h : LoopInv s) (r k : Nat) :
    (roomAt (edgeStep s r).rooms k).type = (roomAt s.rooms k).type := by
  unfold edgeStep
  split
  · rfl
  · next c hcand =>
    obtain ⟨hi, hc, -, -⟩ := candidate_some hcand
    have key := createEdgeAt_type s.rooms s.i c k (by rw [h.graph.len]; exact hi)
      (by rw [h.graph.len]; exact hc)
    simp only
    split
    · exact key
    · split
      · exact key
      · rw [nextRoom_rooms]
        exact key

theorem runEdges_type : ∀ (draws : List Nat) (s : EdgeLoop), LoopInv s →
    ∀ k, (roomAt (runEdges s draws).1.rooms k).type = (roomAt s.rooms k).type
  | [], _, _, _ => rfl
  | r :: rest, s, h, k => by
    unfold runEdges
    split
    · rw [runEdges_type rest _ (edgeStep_inv h r) k, edgeStep_type h r k]
    · rfl

theorem selectRooms_type (fresh : Nat → CString) :
    ∀ (n : Nat) (draws : List Nat), draws.length ≤ n →
      ∀ (i : Nat) (s s' : Selection) (rest : List Nat), s.rooms.length = 7 →
        (∀ k < i, (roomAt s.rooms k).type = fresh k) →
        selectRooms fresh draws i s = some (s', rest) →
        ∀ k < 7, (roomAt s'.rooms k).type = fresh k := by
  intro n
  induction n with
  | zero =>
    intro draws hlen i s s' rest _ hty hrun k hk
    have hd : draws = [] := List.length_eq_zero.mp (Nat.le_zero.mp hlen)
    subst hd
    unfold selectRooms at hrun
    split at hrun
    · cases hrun
    · cases hrun
      exact hty k (by omega)
  | succ n ih =>
    intro draws hlen i s s' rest hl hty hrun k hk
    match draws, hlen, hrun with
    | [], _, hrun =>
      unfold selectRooms at hrun
      split at hrun
      · cases hrun
      · cases hrun
        exact hty k (by omega)
    | [d], _, hrun =>
      unfold selectRooms at hrun
      split at hrun
      · cases hrun
      · cases hrun
        exact hty k (by omega)
    | d1 :: d2 :: rest0, hlen, hrun =>
      unfold selectRooms at hrun
      have hlen0 : rest0.length ≤ n := by simp at hlen; omega
      by_cases hi : i < 7
      · rw [if_pos hi] at hrun
        simp only at hrun
        split at hrun
        · refine ih rest0 hlen0 (i + 1) _ s' rest (by simp [hl]) ?_ hrun k hk
          intro m hm
          show (roomAt (s.rooms.set i _) m).type = fresh m
          rw [roomAt_set _ _ _ _ (by rw [hl]; exact hi)]
          by_cases hmi : m = i
          · rw [if_pos hmi, hmi]
            rfl
          · rw [if_neg hmi]
            exact hty m (by omega)
        · refine ih rest0 hlen0 i _ s' rest ?_ ?_ hrun k hk
          · exact hl
          · exact hty
      · rw [if_neg hi] at hrun
        cases hrun
        exact hty k (by omega)

/-- After generation every room still has the type buffer it was created with. -/
theorem generate_type {fresh : Nat → CString} {draws rest : List Nat} {s : EdgeLoop}
    (h : generate fresh draws = some (s, rest)) :
    ∀ k < 7, (roomAt s.rooms k).type = fresh k := by
  intro k hk
  unfold generate at h
  split at h
  · cases h
  · next sel rest0 hsel =>
    have hs := (selectRooms_spec fresh draws.length draws (le_refl _) 0 selectionStart sel rest0
      selectionStart_inv hsel).1
    have ht := selectRooms_type fresh draws.length draws (le_refl _) 0 selectionStart sel rest0
      (by simp [selectionStart]) (fun k hk => absurd hk (Nat.not_lt_zero k)) hsel k hk
    have h0 := nextRoom_inv hs.graphInv 7 0 (by omega) (fun k hk => absurd hk (Nat.not_lt_zero k))
    have hr := runEdges_type rest0 _ h0 k
    simp only [Option.some.injEq] at h
    rw [h, nextRoom_rooms] at hr
    rw [hr, ht]

/-! ### Names of the selected rooms -/

theorem rooms_eq_map (rooms : List Room) :
    rooms = (List.range rooms.length).map (roomAt rooms) := by
  apply List.ext_getElem
  · simp
  · intro n h1 h2
    simp [roomAt, List.getD_eq_getElem?_getD, List.getElem?_eq_getElem h1]

theorem roomBank_nodup : roomBank.Nodup := by decide

theorem nameString_inj (p q : Nat) (hp : p < 10) (hq : q < 10)
    (e : nameString p = nameString q) : p = q := by
  unfold nameString at e
  have hp' : p < roomBank.length := hp
  have hq' : q < roomBank.length := hq
  rw [List.getD_eq_getElem _ _ hp', List.getD_eq_getElem _ _ hq'] at e
  exact (List.Nodup.getElem_inj_iff roomBank_nodup).mp e

theorem nameString_mem (p : Nat) (hp : p < 10) : nameString p ∈ roomBank := by
  unfold nameString
  have hp' : p < roomBank.length := hp
  rw [List.getD_eq_getElem _ _ hp']
  exact List.getElem_mem _

theorem SelInv.name_lt {s : Selection} (h : SelInv 7 s) (k : Nat) (hk : k < 7) :
    (roomAt s.rooms k).name < 10 := by
  have hk' : k < s.roomsChosen.length := by rw [h.clen]; exact hk
  have e := (h.room k hk).1
  have hm : s.roomsChosen.getD k (-1) ∈ s.roomsChosen.take 7 := by
    rw [List.take_of_length_le (by rw [h.clen]), List.getD_eq_getElem _ _ hk']
    exact List.getElem_mem _
  have h10 : ((roomAt s.rooms k).name : Int) < 10 := by rw [e]; exact (h.range _ hm).2
  exact_mod_cast h10

/-! ### Room types -/

theorem setType_length (rooms : List Room) (idx : Nat) (lit : CString) :
    (setType rooms idx lit).length = rooms.length := by
  simp [setType]

theorem roomAt_setType (rooms : List Room) (idx k : Nat) (lit : CString)
    (h : idx < rooms.length) :
    roomAt (setType rooms idx lit) k =
      if k = idx then { roomAt rooms idx with type := lit } else roomAt rooms k := by
  unfold setType
  rw [roomAt_set _ _ _ _ h]

theorem chooseEnd_spec (startIdx : Nat) :
    ∀ (draws rest : List Nat) (endIdx : Nat), chooseEnd startIdx draws = some (endIdx, rest) →
      endIdx < 7 ∧ endIdx ≠ startIdx
  | [], _, _, h => by cases h
  | r :: rest0, rest, endIdx, h => by
    unfold chooseEnd at h
    simp only at h
    split at h
    · exact chooseEnd_spec startIdx rest0 rest endIdx h
    · next hne =>
      cases h
      exact ⟨Nat.mod_lt _ (by decide), hne⟩

theorem strncmp_start : strncmp "START_ROOM".toList "START_ROOM".toList 3 = 0 := by decide

theorem strncmp_end : strncmp "END_ROOM".toList "END_ROOM".toList 3 = 0 := by decide

theorem mid_ne_start : ¬ "MID_ROOM".toList = "START_ROOM".toList := by decide

theorem mid_ne_end : ¬ "MID_ROOM".toList = "END_ROOM".toList := by decide

theorem start_ne_end : ¬ "START_ROOM".toList = "END_ROOM".toList := by decide

theorem end_ne_start : ¬ "END_ROOM".toList = "START_ROOM".toList := by decide

theorem setMidStep_eq (rs : List Room) (i : Nat) :
    setMidStep rs i =
      if strncmp (roomAt rs i).type "START_ROOM".toList 3 = 0
          ∨ strncmp (roomAt rs i).type "END_ROOM".toList 3 = 0 then rs
      else setType rs i "MID_ROOM".toList := rfl

theorem setMidRooms_aux (n : Nat) : ∀ (rooms : List Room), n ≤ rooms.length →
    ((List.range n).foldl setMidStep rooms).length = rooms.length
    ∧ ∀ k, roomAt ((List.range n).foldl setMidStep rooms) k =
      if k < n ∧ ¬ (strncmp (roomAt rooms k).type "START_ROOM".toList 3 = 0
            ∨ strncmp (roomAt rooms k).type "END_ROOM".toList 3 = 0)
      then { roomAt rooms k with type := "MID_ROOM".toList } else roomAt rooms k := by
  induction n with
  | zero =>
    intro rooms _
    simp
  | succ n ih =>
    intro rooms hn
    obtain ⟨hl, hr⟩ := ih rooms (by omega)
    rw [List.range_succ, List.foldl_append]
    simp only [List.foldl_cons, List.foldl_nil]
    have hn0 : roomAt ((List.range n).foldl setMidStep rooms) n = roomAt rooms n := by
      rw [hr n, if_neg (fun hh => by omega)]
    have hnl : n < ((List.range n).foldl setMidStep rooms).length := by rw [hl]; omega
    rw [setMidStep_eq, hn0]
    split
    · next hc =>
      refine ⟨hl, fun k => ?_⟩
      rw [hr k]
      by_cases hkn : k = n
      · subst hkn
        rw [if_neg (fun hh => by omega), if_neg (fun hh => hh.2 hc)]
      · by_cases hk : k < n
        · have hk1 : k < n + 1 := by omega
          simp only [hk, hk1, true_and]
        · have hk1 : ¬ k < n + 1 := by omega
          simp only [hk, hk1, false_and]
    · next hc =>
      refine ⟨by rw [setType_length, hl], fun k => ?_⟩
      rw [roomAt_setType _ _ _ _ hnl, hn0]
      by_cases hkn : k = n
      · subst hkn
        rw [if_pos rfl, if_pos ⟨by omega, hc⟩]
      · rw [if_neg hkn, hr k]
        by_cases hk : k < n
        · have hk1 : k < n + 1 := by omega
          simp only [hk, hk1, true_and]
        · have hk1 : ¬ k < n + 1 := by omega
          simp only [hk, hk1, false_and]

theorem roomAt_setMidRooms (rooms : List Room) (hlen : rooms.length = 7) (k : Nat) (hk : k < 7) :
    roomAt (setMidRooms rooms) k =
      if strncmp (roomAt rooms k).type "START_ROOM".toList 3 = 0
          ∨ strncmp (roomAt rooms k).type "END_ROOM".toList 3 = 0
      then roomAt rooms k else { roomAt rooms k with type := "MID_ROOM".toList } := by
  unfold setMidRooms
  rw [(setMidRooms_aux 7 rooms (by omega)).2 k]
  by_cases hc : strncmp (roomAt rooms k).type "START_ROOM".toList 3 = 0
      ∨ strncmp (roomAt rooms k).type "END_ROOM".toList 3 = 0
  · rw [if_neg (fun hh => hh.2 hc), if_pos hc]
  · rw [if_pos ⟨hk, hc⟩, if_neg hc]

/-! ### The choice matching loop -/

theorem strncmp_eq_zero_iff : ∀ (a b : CString) (n : Nat),
    strncmp a b n = 0 ↔ a.take n = b.take n
  | _, _, 0 => by simp [strncmp]
  | [], [], _ + 1 => by simp [strncmp]
  | [], _ :: _, _ + 1 => by simp [strncmp]
  | _ :: _, [], _ + 1 => by simp [strncmp]
  | a :: as, b :: bs, n + 1 => by
    unfold strncmp
    by_cases h : a = b
    · rw [if_pos h, strncmp_eq_zero_iff as bs n]
      simp [h]
    · rw [if_neg h]
      constructor
      · intro h0
        split at h0 <;> exact absurd h0 (by decide)
      · intro he
        simp [h] at he

/-- The loop stops at the first choice, from slot `i` on, that matches the input. -/
theorem choiceLoop_eq (rooms : List Room) (choices : List CString) (inputString : CString) :
    ∀ (n i : Nat) (t : Turn), i + n ≤ choices.length →
      choiceLoop rooms choices inputString n i t =
        match ((choices.drop i).take n).find? (fun c => decide (c.take 3 = inputString.take 3)) with
        | some c => takeChoice rooms inputString t c
        | none => if n = 0 then t else { t with error := 1 }
  | 0, _, _, _ => by simp [choiceLoop]
  | n + 1, i, t, h => by
    have hi : i < choices.length := by omega
    have hd : (choices.drop i).take (n + 1) = choices[i] :: (choices.drop (i + 1)).take n := by
      rw [List.drop_eq_getElem_cons hi, List.take_succ_cons]
    have hg : choices.getD i [] = choices[i] := List.getD_eq_getElem _ _ hi
    unfold choiceLoop
    rw [hd, hg, List.find?_cons]
    by_cases hm : strncmp choices[i] inputString 3 = 0
    · rw [if_pos hm]
      have : decide (List.take 3 choices[i] = List.take 3 inputString) = true :=
        decide_eq_true ((strncmp_eq_zero_iff _ _ _).mp hm)
      rw [this]
    · rw [if_neg hm]
      have : decide (List.take 3 choices[i] = List.take 3 inputString) = false :=
        decide_eq_false (fun e => hm ((strncmp_eq_zero_iff _ _ _).mpr e))
      rw [this, choiceLoop_eq rooms choices inputString n (i + 1) _ (by omega)]
      simp only
      cases ((choices.drop (i + 1)).take n).find?
          (fun c => decide (c.take 3 = inputString.take 3)) with
      | some c => rfl
      | none =>
        simp only [Nat.succ_ne_zero, if_false, Nat.add_eq_zero, and_false]
        split <;> rfl

theorem bank_eng_unique : ∀ c ∈ roomBank, c.take 3 = "Eng".toList → c = "Engineering".toList := by
  decide

theorem matchChoice_eq (rooms : List Room) (choices : List CString) (printcounter : Nat)
    (inputString : CString) (player : PlayerToken) (beginIdx : Nat)
    (hp : printcounter ≤ choices.length) :
    matchChoice rooms choices printcounter inputString player beginIdx =
      match (choices.take printcounter).find?
          (fun c => decide (c.take 3 = inputString.take 3)) with
      | some c =>
        takeChoice rooms inputString { player := player, beginIdx := beginIdx, error := 0 } c
      | none =>
        if printcounter = 0 then { player := player, beginIdx := beginIdx, error := 0 }
        else { player := player, beginIdx := beginIdx, error := 1 } := by
  unfold matchChoice
  rw [choiceLoop_eq rooms choices inputString printcounter 0 _ (by omega), List.drop_zero]

/-! ### Generated games -/

theorem createEdge_name (a b : Room) :
    (_createEdge a b).1.name = a.name ∧ (_createEdge a b).2.1.name = b.name := by
  rcases createEdge_ret a b with ⟨_, hf⟩ | ⟨_, h1, h2⟩
  · rw [createEdge_fail a b hf]
    exact ⟨rfl, rfl⟩
  · obtain ⟨_, n1, n2, _⟩ := createEdge_ok a b h1 h2
    exact ⟨n1, n2⟩

theorem createEdgeAt_name (rooms : List Room) (i c k : Nat)
    (hi : i < rooms.length) (hc : c < rooms.length) :
    (roomAt (createEdgeAt rooms i c).1 k).name = (roomAt rooms k).name := by
  rw [roomAt_createEdgeAt rooms i c k hi hc]
  by_cases hkc : k = c
  · rw [if_pos hkc, hkc]
    exact (createEdge_name _ _).2
  · rw [if_neg hkc]
    by_cases hki : k = i
    · rw [if_pos hki, hki]
      exact (createEdge_name _ _).1
    · rw [if_neg hki]

theorem edgeStep_name {s : EdgeLoop} (h : LoopInv s) (r k : Nat) :
    (roomAt (edgeStep s r).rooms k).name = (roomAt s.rooms k).name := by
  unfold edgeStep
  split
  · rfl
  · next c hcand =>
    obtain ⟨hi, hc, -, -⟩ := candidate_some hcand
    have key := createEdgeAt_name s.rooms s.i c k (by rw [h.graph.len]; exact hi)
      (by rw [h.graph.len]; exact hc)
    simp only
    split
    · exact key
    · split
      · exact key
      · rw [nextRoom_rooms]
        exact key

theorem runEdges_name : ∀ (draws : List Nat) (s : EdgeLoop), LoopInv s →
    ∀ k, (roomAt (runEdges s draws).1.rooms k).name = (roomAt s.rooms k).name
  | [], _, _, _ => rfl
  | r :: rest, s, h, k => by
    unfold runEdges
    split
    · rw [runEdges_name rest _ (edgeStep_inv h r) k, edgeStep_name h r k]
    · rfl

/-- After generation every room is named by a literal of the bank. -/
theorem generate_name_lt {fresh : Nat → CString} {draws rest : List Nat} {s : EdgeLoop}
    (h : generate fresh draws = some (s, rest)) :
    ∀ k < 7, (roomAt s.rooms k).name < 10 := by
  intro k hk
  unfold generate at h
  split at h
  · cases h
  · next sel rest0 hsel =>
    have hs := (selectRooms_spec fresh draws.length draws (le_refl _) 0 selectionStart sel rest0
      selectionStart_inv hsel).1
    have h0 := nextRoom_inv hs.graphInv 7 0 (by omega) (fun k hk => absurd hk (Nat.not_lt_zero k))
    have hr := runEdges_name rest0 _ h0 k
    simp only [Option.some.injEq] at h
    rw [h, nextRoom_rooms] at hr
    rw [hr]
    exact hs.name_lt k hk

theorem GraphInv.of_fields {rooms rooms' : List Room} (h : GraphInv rooms)
    (hlen : rooms'.length = 7)
    (hf : ∀ k < 7, (roomAt rooms' k).name = (roomAt rooms k).name
      ∧ (roomAt rooms' k).connectionList = (roomAt rooms k).connectionList) :
    GraphInv rooms' := by
  have hn : ∀ k < 7, (roomAt rooms' k).name = (roomAt rooms k).name := fun k hk => (hf k hk).1
  have hc : ∀ k < 7, connNames (roomAt rooms' k) = connNames (roomAt rooms k) := by
    intro k hk
    unfold connNames
    rw [(hf k hk).2]
  refine ⟨hlen, ?_, ?_, ?_, ?_, ?_, ?_, ?_⟩
  · intro k hk l hl
    rw [hn k hk, hn l hl]
    exact h.inj k hk l hl
  · intro k hk
    rw [hc k hk, (hf k hk).2]
    exact h.card k hk
  · intro k hk
    rw [(hf k hk).2]
    exact h.bounds k hk
  · intro k hk p hp
    rw [hc k hk] at hp
    obtain ⟨l, hl, e⟩ := h.closed k hk p hp
    exact ⟨l, hl, by rw [hn l hl]; exact e⟩
  · intro k hk l hl
    rw [hn k hk, hn l hl, hc k hk, hc l hl]
    exact h.symm k hk l hl
  · intro k hk
    rw [hn k hk, hc k hk]
    exact h.noself k hk
  · intro k hk
    rw [hc k hk]
    exact h.nodup k hk

/-- The rooms after type assignment: names and connection lists are kept, and
the type of every room is settled by the two indices drawn. -/
theorem assignTypes_rooms (rooms rooms' : List Room) (draws rest : List Nat)
    (hlen : rooms.length = 7) (h : assignTypes rooms draws = some (rooms', rest)) :
    rooms'.length = 7
    ∧ ∃ startIdx, startIdx < 7 ∧ ∃ endIdx, endIdx < 7 ∧ startIdx ≠ endIdx
      ∧ ∀ k < 7, (roomAt rooms' k).name = (roomAt rooms k).name
        ∧ (roomAt rooms' k).connectionList = (roomAt rooms k).connectionList
        ∧ (roomAt rooms' k).type =
          if k = endIdx then "END_ROOM".toList
          else if k = startIdx then "START_ROOM".toList
          else if strncmp (roomAt rooms k).type "START_ROOM".toList 3 = 0
              ∨ strncmp (roomAt rooms k).type "END_ROOM".toList 3 = 0
            then (roomAt rooms k).type else "MID_ROOM".toList := by
  match draws, h with
  | [], h => cases h
  | r :: rest0, h =>
    unfold assignTypes at h
    simp only at h
    split at h
    · cases h
    · next endIdx rest1 hend =>
      obtain ⟨he7, hne⟩ := chooseEnd_spec _ _ _ _ hend
      have hs7 : r % 7 < 7 := Nat.mod_lt _ (by decide)
      simp only [Option.some.injEq, Prod.mk.injEq] at h
      obtain ⟨h, -⟩ := h
      subst h
      have hl1 : (setType rooms (r % 7) "START_ROOM".toList).length = 7 := by
        rw [setType_length, hlen]
      have hl2 : (setType (setType rooms (r % 7) "START_ROOM".toList) endIdx
          "END_ROOM".toList).length = 7 := by
        rw [setType_length, hl1]
      have h2 : ∀ k, roomAt (setType (setType rooms (r % 7) "START_ROOM".toList) endIdx
          "END_ROOM".toList) k =
          if k = endIdx then { roomAt rooms k with type := "END_ROOM".toList }
          else if k = r % 7 then { roomAt rooms k with type := "START_ROOM".toList }
          else roomAt rooms k := by
        intro k
        rw [roomAt_setType _ _ _ _ (by rw [hl1]; exact he7)]
        by_cases hke : k = endIdx
        · rw [if_pos hke, if_pos hke, roomAt_setType _ _ _ _ (by rw [hlen]; exact hs7),
            if_neg hne, hke]
        · rw [if_neg hke, if_neg hke, roomAt_setType _ _ _ _ (by rw [hlen]; exact hs7)]
          by_cases hks : k = r % 7
          · rw [if_pos hks, if_pos hks, hks]
          · rw [if_neg hks, if_neg hks]
      refine ⟨?_, r % 7, hs7, endIdx, he7, fun e => hne e.symm, ?_⟩
      · unfold setMidRooms
        rw [(setMidRooms_aux 7 _ (by rw [hl2])).1, hl2]
      · intro k hk
        rw [roomAt_setMidRooms _ hl2 k hk, h2 k]
        by_cases hke : k = endIdx
        · rw [if_pos hke, if_pos (Or.inr strncmp_end), if_pos hke]
          exact ⟨rfl, rfl, rfl⟩
        · rw [if_neg hke, if_neg hke]
          by_cases hks : k = r % 7
          · rw [if_pos hks, if_pos (Or.inl strncmp_start), if_pos hks]
            exact ⟨rfl, rfl, rfl⟩
          · rw [if_neg hks, if_neg hks]
            split
            · exact ⟨rfl, rfl, rfl⟩
            · exact ⟨rfl, rfl, rfl⟩

/-- A generated game has what the play loop uses. -/
theorem Generated.inv {rooms : List Room} (h : Generated rooms) : GameInv rooms := by
  obtain ⟨fresh, draws, rest, rest1, s, hfresh, hgen, hdone, hty⟩ := h
  have hg := (generate_inv hgen).graph
  obtain ⟨hl, startIdx, hs, endIdx, he, hne, hk⟩ := assignTypes_rooms _ _ _ _ hg.len hty
  refine ⟨hg.of_fields hl (fun k hk7 => ⟨(hk k hk7).1, (hk k hk7).2.1⟩), ?_,
    startIdx, hs, endIdx, he, hne, ?_⟩
  · intro k hk7
    rw [(hk k hk7).1]
    exact generate_name_lt hgen k hk7
  · intro k hk7
    have ht := (hk k hk7).2.2
    rw [generate_type hgen k hk7] at ht
    by_cases hke : k = endIdx
    · rw [if_pos hke] at ht
      rw [ht]
      exact ⟨⟨fun e => absurd e end_ne_start, fun e => absurd (hke ▸ e : endIdx = startIdx)
        (fun e' => hne e'.symm)⟩, ⟨fun _ => hke, fun _ => rfl⟩, fun _ h2 => absurd hke h2⟩
    · rw [if_neg hke] at ht
      by_cases hks : k = startIdx
      · rw [if_pos hks] at ht
        rw [ht]
        exact ⟨⟨fun _ => hks, fun _ => rfl⟩,
          ⟨fun e => absurd e start_ne_end, fun e => absurd e hke⟩, fun h1 _ => absurd hks h1⟩
      · rw [if_neg hks, if_neg (fun hh => hh.elim (hfresh k hk7).1 (hfresh k hk7).2)] at ht
        rw [ht]
        exact ⟨⟨fun e => absurd e mid_ne_start, fun e => absurd e hks⟩,
          ⟨fun e => absurd e mid_ne_end, fun e => absurd e hke⟩, fun _ _ => rfl⟩

/-! ### Reading the file of a room -/

theorem store_length_gt {α : Type} (buf : List α) (idx : Nat) (v : α) (h : idx ≤ buf.length) :
    idx + 1 ≤ (store buf idx v).length := by
  unfold store
  split
  · simp only [List.length_set]
    omega
  · simp only [List.length_append, List.length_singleton]
    omega

theorem readLine_le (st : List CString × Nat) (myLine : CString) (h : st.2 ≤ st.1.length) :
    (readLine st myLine).2 ≤ (readLine st myLine).1.length := by
  unfold readLine
  split
  · exact store_length_gt _ _ _ h
  · exact h

theorem foldl_readLine_le : ∀ (lines : List CString) (st : List CString × Nat),
    st.2 ≤ st.1.length →
      (lines.foldl readLine st).2 ≤ (lines.foldl readLine st).1.length
  | [], _, h => h
  | l :: ls, st, h => by
    rw [List.foldl_cons]
    exact foldl_readLine_le ls _ (readLine_le st l h)

/-- The rows of `choices` below `printcounter` have all been written. -/
theorem readChoices_le (lines choices : List CString) :
    (readChoices lines choices).2 ≤ (readChoices lines choices).1.length :=
  foldl_readLine_le lines (choices, 0) (Nat.zero_le _)

theorem readLine_name (st : List CString × Nat) (x : CString) :
    readLine st ("ROOM NAME: ".toList ++ x) = st := by
  unfold readLine
  rw [if_neg]
  rw [strncmp_eq_zero_iff]
  intro h
  have := congrArg List.head? h
  simp at this

theorem readLine_type (st : List CString × Nat) (x : CString) :
    readLine st ("ROOM TYPE: ".toList ++ x) = st := by
  unfold readLine
  rw [if_neg]
  rw [strncmp_eq_zero_iff]
  intro h
  have := congrArg List.head? h
  simp at this

theorem stripNewline_concat (x : CString) : stripNewline (x ++ ['\n']) = x := by
  unfold stripNewline
  rw [if_pos (by simp), List.dropLast_concat]

theorem digit_length : ∀ j < 9, (Nat.repr (j + 1)).toList.length = 1 := by decide

theorem readLine_connection (st : List CString × Nat) (j : Nat) (hj : j < 9) (p : NamePtr) :
    readLine st (connectionLine j p) = (store st.1 st.2 (nameString p), st.2 + 1) := by
  have hlen : ("CONNECTION ".toList ++ (Nat.repr (j + 1)).toList ++ ": ".toList).length = 14 := by
    rw [List.length_append, List.length_append, digit_length j hj]
    rfl
  have hdrop : (connectionLine j p).drop 14 = nameString p ++ ['\n'] := by
    unfold connectionLine
    rw [List.append_assoc _ (nameString p) _, ← hlen, List.drop_left]
  have hcmp : strncmp (connectionLine j p) "CONNECTION ".toList 10 = 0 := by
    rw [strncmp_eq_zero_iff]
    unfold connectionLine
    simp only [List.append_assoc]
    rw [List.take_append_of_le_length (by decide)]
  unfold readLine
  rw [if_pos hcmp, hdrop, stripNewline_concat]

/-- Reading the connection lines of the first `m` slots fills the first `m` rows
of `choices` with the names in those slots. -/
theorem foldl_readLine_connections (conns : List NamePtr) (choices : List CString) :
    ∀ m, m ≤ conns.length → m ≤ 9 →
      (((List.range m).filterMap (fun j => (conns[j]?).map (connectionLine j))).foldl readLine
        (choices, 0)).2 = m
      ∧ (((List.range m).filterMap (fun j => (conns[j]?).map (connectionLine j))).foldl readLine
        (choices, 0)).1.take m = (conns.take m).map nameString := by
  intro m
  induction m with
  | zero => intro _ _; simp
  | succ m ih =>
    intro hm h9
    obtain ⟨h2, h1⟩ := ih (by omega) (by omega)
    have hlt : m < conns.length := by omega
    have hget : conns[m]? = some conns[m] := List.getElem?_eq_getElem hlt
    rw [List.range_succ, List.filterMap_append, List.foldl_append]
    simp only [List.filterMap_cons, List.filterMap_nil, hget, Option.map_some',
      List.foldl_cons, List.foldl_nil]
    rw [readLine_connection _ m (by omega) conns[m]]
    simp only
    rw [h2]
    refine ⟨rfl, ?_⟩
    rw [take_store, h1, List.take_succ, hget, List.map_append]
    rfl

/-- What a turn presents for a room whose slots below `size` have been written:
the names in those slots, in order. -/
theorem readChoices_roomRecord (r : Room) (choices : List CString)
    (hcard : (connNames r).length = r.connectionList.size) (hsz : r.connectionList.size ≤ 9) :
    (readChoices (roomRecord r) choices).2 = r.connectionList.size
    ∧ (readChoices (roomRecord r) choices).1.take r.connectionList.size
        = (connNames r).map nameString := by
  have hle : r.connectionList.size ≤ r.connectionList.connections.length := by
    unfold connNames at hcard
    rw [List.length_take] at hcard
    omega
  obtain ⟨h2, h1⟩ := foldl_readLine_connections r.connectionList.connections choices
    r.connectionList.size hle hsz
  unfold readChoices roomRecord
  rw [List.foldl_append, List.foldl_append]
  simp only [List.foldl_cons, List.foldl_nil]
  rw [List.append_assoc, readLine_name, List.append_assoc, readLine_type]
  exact ⟨h2, h1⟩

/-! ### One turn of the play loop -/

theorem playTurn_none (rooms : List Room) (st : Play) (inputString : CString)
    (h : (presented rooms st).find? (fun c => decide (c.take 3 = inputString.take 3)) = none) :
    (playTurn rooms st inputString).player = st.player
    ∧ (playTurn rooms st inputString).beginIdx = st.beginIdx := by
  unfold presented at h
  unfold playTurn
  simp only
  rw [matchChoice_eq _ _ _ _ _ _ (readChoices_le _ _), h]
  simp only
  split <;> exact ⟨rfl, rfl⟩

theorem playTurn_some (rooms : List Room) (st : Play) (inputString c : CString)
    (h : (presented rooms st).find? (fun c => decide (c.take 3 = inputString.take 3)) = some c) :
    (playTurn rooms st inputString).player
      = { stepsTaken := st.player.stepsTaken + 1,
          pathToVictory := store st.player.pathToVictory st.player.stepsTaken c }
    ∧ (playTurn rooms st inputString).beginIdx = nextRoomScan rooms inputString st.beginIdx := by
  unfold presented at h
  unfold playTurn
  simp only
  rw [matchChoice_eq _ _ _ _ _ _ (readChoices_le _ _), h]
  exact ⟨rfl, rfl⟩

theorem bank_first_three_inj : ∀ p < 10, ∀ q < 10,
    (nameString p).take 3 = (nameString q).take 3 → p = q := by
  decide

/-- A scan that keeps the last hit returns the only hit. -/
theorem foldl_only_hit (P : Nat → Prop) [DecidablePred P] (l b : Nat) :
    ∀ n, l < n → P l → (∀ i < n, P i → i = l) →
      (List.range n).foldl (fun b i => if P i then i else b) b = l := by
  intro n
  induction n with
  | zero => intro h; omega
  | succ n ih =>
    intro hl hp hu
    rw [List.range_succ, List.foldl_append]
    simp only [List.foldl_cons, List.foldl_nil]
    by_cases hn : P n
    · rw [if_pos hn]
      exact hu n (by omega) hn
    · rw [if_neg hn]
      have hln : l < n := by
        rcases Nat.lt_succ_iff_lt_or_eq.mp hl with h | h
        · exact h
        · rw [h] at hp
          exact absurd hp hn
      exact ih hln hp (fun i hi => hu i (by omega))

/-- In a generated game the scan of lines 490-497 finds the room whose name
agrees with the input on the first 3 characters. -/
theorem nextRoomScan_eq {rooms : List Room} (h : GameInv rooms) (inputString : CString)
    (b l : Nat) (hl : l < 7)
    (hm : (nameString (roomAt rooms l).name).take 3 = inputString.take 3) :
    nextRoomScan rooms inputString b = l := by
  unfold nextRoomScan
  refine foldl_only_hit (fun i => strncmp (nameString (roomAt rooms i).name) inputString 3 = 0)
    l b 7 hl ((strncmp_eq_zero_iff _ _ _).mpr hm) ?_
  intro i hi hpi
  have e := (strncmp_eq_zero_iff _ _ _).mp hpi
  exact h.graph.inj i hi l hl
    (bank_first_three_inj _ (h.bank i hi) _ (h.bank l hl) (e.trans hm.symm))

theorem presented_eq {rooms : List Room} (h : GameInv rooms) (st : Play) (hb : st.beginIdx < 7) :
    presented rooms st = (connNames (roomAt rooms st.beginIdx)).map nameString := by
  have hbnd := h.graph.bounds st.beginIdx hb
  obtain ⟨h2, h1⟩ := readChoices_roomRecord (roomAt rooms st.beginIdx) st.choices
    (h.graph.card st.beginIdx hb) (by omega)
  unfold presented
  rw [h2, h1]

/-- A turn of a generated game that matches the connection name `c` moves to the
room of that name, which is connected to the current room. -/
theorem playTurn_move {rooms : List Room} (h : GameInv rooms) (st : Play) (hb : st.beginIdx < 7)
    (inputString c : CString)
    (hf : (presented rooms st).find? (fun c => decide (c.take 3 = inputString.take 3)) = some c) :
    (playTurn rooms st inputString).beginIdx < 7
    ∧ nameString (roomAt rooms (playTurn rooms st inputString).beginIdx).name = c
    ∧ (roomAt rooms (playTurn rooms st inputString).beginIdx).name
        ∈ connNames (roomAt rooms st.beginIdx) := by
  have hc : c ∈ presented rooms st := List.mem_of_find?_eq_some hf
  have hcp : c.take 3 = inputString.take 3 := by
    have := List.find?_some hf
    simpa using this
  rw [presented_eq h st hb, List.mem_map] at hc
  obtain ⟨p, hp, hpc⟩ := hc
  obtain ⟨l, hl, hlp⟩ := h.graph.closed st.beginIdx hb p hp
  have hscan : nextRoomScan rooms inputString st.beginIdx = l :=
    nextRoomScan_eq h inputString st.beginIdx l hl (by rw [hlp, hpc, hcp])
  rw [(playTurn_some rooms st inputString c hf).2, hscan]
  exact ⟨hl, by rw [hlp, hpc], by rw [hlp]; exact hp⟩

/-! ### The play loop -/

theorem sampleTyped_generated : Generated sampleTyped :=
  ⟨sampleFresh, sampleDraws, [3, 3, 5], [], sampleFinal, by decide, by decide, rfl, by decide⟩

theorem scenarioRooms_generated : Generated scenarioRooms :=
  ⟨sampleFresh, scenarioDraws, [0, 5], [], scenarioFinal, by decide, by decide, rfl, by decide⟩

theorem foldl_only_hit_int (P : Nat → Prop) [DecidablePred P] (l : Nat) (b : Int) :
    ∀ n, l < n → P l → (∀ i < n, P i → i = l) →
      (List.range n).foldl (fun (b : Int) i => if P i then (i : Int) else b) b = (l : Int) := by
  intro n
  induction n with
  | zero => intro h; omega
  | succ n ih =>
    intro hl hp hu
    rw [List.range_succ, List.foldl_append]
    simp only [List.foldl_cons, List.foldl_nil]
    by_cases hn : P n
    · rw [if_pos hn, hu n (by omega) hn]
    · rw [if_neg hn]
      have hln : l < n := by
        rcases Nat.lt_succ_iff_lt_or_eq.mp hl with h | h
        · exact h
        · rw [h] at hp
          exact absurd hp hn
      exact ih hln hp (fun i hi => hu i (by omega))

/-- In a generated game the lookup of lines 395-400 finds the START room. -/
theorem playStart_type {rooms : List Room} (h : GameInv rooms) :
    (playStart rooms).beginIdx < 7
    ∧ (roomAt rooms (playStart rooms).beginIdx).type = "START_ROOM".toList := by
  obtain ⟨startIdx, hs, endIdx, he, hne, hk⟩ := h.types
  have hstart : (roomAt rooms startIdx).type = "START_ROOM".toList := (hk startIdx hs).1.mpr rfl
  have hfind : findStart rooms = (startIdx : Int) := by
    unfold findStart
    refine foldl_only_hit_int
      (fun i => strncmp (roomAt rooms i).type "START_ROOM".toList 1 = 0) startIdx (-1) 7 hs
      (by show strncmp _ _ 1 = 0; rw [hstart]; decide) ?_
    intro i hi hp
    by_contra hne'
    by_cases hie : i = endIdx
    · have : (roomAt rooms i).type = "END_ROOM".toList := (hk i hi).2.1.mpr hie
      rw [this] at hp
      exact absurd hp (by decide)
    · have : (roomAt rooms i).type = "MID_ROOM".toList := (hk i hi).2.2 hne' hie
      rw [this] at hp
      exact absurd hp (by decide)
  have hb : (playStart rooms).beginIdx = startIdx := by
    show (findStart rooms).toNat = startIdx
    rw [hfind]
    rfl
  rw [hb]
  exact ⟨hs, hstart⟩

/-- In a generated game the test of line 413 holds exactly in the END room. -/
theorem atEnd_iff {rooms : List Room} (h : GameInv rooms) (st : Play) (hb : st.beginIdx < 7) :
    atEnd rooms st = true ↔ (roomAt rooms st.beginIdx).type = "END_ROOM".toList := by
  obtain ⟨startIdx, hs, endIdx, he, hne, hk⟩ := h.types
  unfold atEnd
  rw [decide_eq_true_iff]
  constructor
  · intro hp
    by_contra hnot
    have hie : st.beginIdx ≠ endIdx := fun e => hnot ((hk _ hb).2.1.mpr e)
    by_cases his : st.beginIdx = startIdx
    · rw [(hk _ hb).1.mpr his] at hp
      exact absurd hp (by decide)
    · rw [(hk _ hb).2.2 his hie] at hp
      exact absurd hp (by decide)
  · intro e
    rw [e]
    decide

theorem playLoop_at_end (rooms : List Room) (st : Play) (inputs : List CString)
    (h : atEnd rooms st = true) : playLoop rooms st inputs = (st, inputs) := by
  cases inputs with
  | nil => rfl
  | cons inputString rest =>
    unfold playLoop
    rw [if_pos h]

theorem playLoop_turn (rooms : List Room) (st : Play) (inputString : CString)
    (rest : List CString) (h : atEnd rooms st = false) :
    playLoop rooms st (inputString :: rest)
      = playLoop rooms (playTurn rooms st inputString) rest := by
  conv_lhs => unfold playLoop
  rw [if_neg (by rw [h]; decide)]

theorem playLoop_unread (rooms : List Room) : ∀ (inputs : List CString) (st : Play),
    (playLoop rooms st inputs).2 ≠ [] → atEnd rooms (playLoop rooms st inputs).1 = true
  | [], _, h => absurd rfl h
  | inputString :: rest, st, h => by
    by_cases he : atEnd rooms st = true
    · rw [playLoop_at_end rooms st _ he]
      exact he
    · have he' : atEnd rooms st = false := by simpa using he
      rw [playLoop_turn rooms st inputString rest he'] at h ⊢
      exact playLoop_unread rooms rest _ h

/-- The path grows by the names the inputs match. -/
theorem playLoop_path (rooms : List Room) : ∀ (inputs : List CString) (st : Play),
    st.player.pathToVictory.length = st.player.stepsTaken →
      (playLoop rooms st inputs).1.player.pathToVictory
          = st.player.pathToVictory ++ acceptedNames rooms st inputs
      ∧ (playLoop rooms st inputs).1.player.stepsTaken
          = st.player.stepsTaken + (acceptedNames rooms st inputs).length
  | [], st, _ => by simp [playLoop, acceptedNames]
  | inputString :: rest, st, hwf => by
    by_cases he : atEnd rooms st = true
    · rw [playLoop_at_end rooms st _ he]
      unfold acceptedNames
      rw [if_pos he]
      simp
    · have he' : atEnd rooms st = false := by simpa using he
      rw [playLoop_turn rooms st inputString rest he']
      unfold acceptedNames
      rw [if_neg he]
      cases hf : (presented rooms st).find?
          (fun c => decide (c.take 3 = inputString.take 3)) with
      | none =>
        obtain ⟨hp, -⟩ := playTurn_none rooms st inputString hf
        obtain ⟨h1, h2⟩ := playLoop_path rooms rest (playTurn rooms st inputString)
          (by rw [hp]; exact hwf)
        simp only
        rw [h1, h2, hp]
        exact ⟨rfl, rfl⟩
      | some c =>
        obtain ⟨hp, -⟩ := playTurn_some rooms st inputString c hf
        have hst : store st.player.pathToVictory st.player.stepsTaken c
            = st.player.pathToVictory ++ [c] := by
          unfold store
          rw [if_neg (by omega)]
        obtain ⟨h1, h2⟩ := playLoop_path rooms rest (playTurn rooms st inputString)
          (by rw [hp]; simp only; rw [hst, List.length_append, hwf]; rfl)
        simp only
        rw [h1, h2, hp]
        simp only
        rw [hst, List.append_assoc, List.length_cons]
        exact ⟨rfl, by omega⟩

/-- In a generated game the names recorded from a state on are a walk from the
current room of that state. -/
theorem playLoop_walk_from {rooms : List Room} (h : GameInv rooms) :
    ∀ (inputs : List CString) (st : Play), st.beginIdx < 7 →
      st.player.pathToVictory.length = st.player.stepsTaken →
      ∃ ext, (playLoop rooms st inputs).1.player.pathToVictory = st.player.pathToVictory ++ ext
        ∧ IsWalk rooms st.beginIdx ext
  | [], st, _, _ => ⟨[], by simp [playLoop], trivial⟩
  | inputString :: rest, st, hb, hwf => by
    by_cases he : atEnd rooms st = true
    · rw [playLoop_at_end rooms st _ he]
      exact ⟨[], by simp, trivial⟩
    · have he' : atEnd rooms st = false := by simpa using he
      rw [playLoop_turn rooms st inputString rest he']
      cases hf : (presented rooms st).find?
          (fun c => decide (c.take 3 = inputString.take 3)) with
      | none =>
        obtain ⟨hp, hbi⟩ := playTurn_none rooms st inputString hf
        obtain ⟨ext, h1, h2⟩ := playLoop_walk_from h rest (playTurn rooms st inputString)
          (by rw [hbi]; exact hb) (by rw [hp]; exact hwf)
        rw [hp] at h1
        rw [hbi] at h2
        exact ⟨ext, h1, h2⟩
      | some c =>
        obtain ⟨hp, -⟩ := playTurn_some rooms st inputString c hf
        obtain ⟨hl, hname, hconn⟩ := playTurn_move h st hb inputString c hf
        have hst : store st.player.pathToVictory st.player.stepsTaken c
            = st.player.pathToVictory ++ [c] := by
          unfold store
          rw [if_neg (by omega)]
        obtain ⟨ext, h1, h2⟩ := playLoop_walk_from h rest (playTurn rooms st inputString) hl
          (by rw [hp]; simp only; rw [hst, List.length_append, hwf]; rfl)
        rw [hp] at h1
        simp only at h1
        rw [hst, List.append_assoc] at h1
        exact ⟨c :: ext, h1, _, hl, hname, hconn, h2⟩

/-! ## The claims -/

/-- C1: on every sequence of draws on which graph generation (room selection
followed by the edge construction loop) completes, each of the seven rooms ends
with a connection count of at least 3 and at most 6. -/
theorem generate_degree_bounds (fresh : Nat → CString) (draws rest : List Nat) (s : EdgeLoop)
    (h : generate fresh draws = some (s, rest)) (hdone : s.i = 7) :
    ∀ k < 7, (connNames (roomAt s.rooms k)).length = (roomAt s.rooms k).connectionList.size
      ∧ 3 ≤ (roomAt s.rooms k).connectionList.size
      ∧ (roomAt s.rooms k).connectionList.size ≤ 6 := by
  intro k hk
  have hinv := generate_inv h
  have hb := hinv.graph.bounds k hk
  have hf := hinv.finished k (by omega)
  exact ⟨hinv.graph.card k hk, by omega, by omega⟩

theorem generate_degree_bounds_witness :
    generate sampleFresh sampleDraws = some (sampleFinal, [3, 3, 5]) ∧ sampleFinal.i = 7
    ∧ ∀ k < 7, (connNames (roomAt sampleFinal.rooms k)).length
        = (roomAt sampleFinal.rooms k).connectionList.size
      ∧ 3 ≤ (roomAt sampleFinal.rooms k).connectionList.size
      ∧ (roomAt sampleFinal.rooms k).connectionList.size ≤ 6 :=
  ⟨by decide, rfl, generate_degree_bounds sampleFresh sampleDraws [3, 3, 5] sampleFinal
    (by decide) rfl⟩

/-- C2: in every graph state reachable during generation, for all rooms A and B,
the name of B is in the connection list of A if and only if the name of A is in
the connection list of B. -/
theorem generate_symmetric (fresh : Nat → CString) (draws rest : List Nat) (s : EdgeLoop)
    (h : generate fresh draws = some (s, rest)) :
    ∀ a < 7, ∀ b < 7,
      ((roomAt s.rooms b).name ∈ connNames (roomAt s.rooms a)
        ↔ (roomAt s.rooms a).name ∈ connNames (roomAt s.rooms b)) := by
  intro a ha b hb
  have hg := (generate_inv h).graph
  exact ⟨hg.symm a ha b hb, hg.symm b hb a ha⟩

theorem generate_symmetric_witness :
    generate sampleFresh (sampleDraws.take 30) = some (sampleMid, [])
    ∧ ∀ a < 7, ∀ b < 7,
      ((roomAt sampleMid.rooms b).name ∈ connNames (roomAt sampleMid.rooms a)
        ↔ (roomAt sampleMid.rooms a).name ∈ connNames (roomAt sampleMid.rooms b)) :=
  ⟨by decide, generate_symmetric sampleFresh (sampleDraws.take 30) [] sampleMid (by decide)⟩

/-- C3: on every sequence of draws, no room of a graph state that generation
reaches has its own name in its connection list; the edge construction loop
never calls `_createEdge` with the candidate index equal to the index of the
current room; and `_createEdge` leaves each of the two lists as it was or adds
the name of the other room at its end. -/
theorem generate_no_self_loop (fresh : Nat → CString) (draws rest : List Nat) (s : EdgeLoop)
    (h : generate fresh draws = some (s, rest)) :
    (∀ k < 7, (roomAt s.rooms k).name ∉ connNames (roomAt s.rooms k))
    ∧ (∀ r c, candidate s r = some c → c ≠ s.i)
    ∧ (∀ a b : Room,
        (connNames (_createEdge a b).1 = connNames a
          ∨ connNames (_createEdge a b).1 = connNames a ++ [b.name])
        ∧ (connNames (_createEdge a b).2.1 = connNames b
          ∨ connNames (_createEdge a b).2.1 = connNames b ++ [a.name])) := by
  refine ⟨(generate_inv h).graph.noself, fun r c hc => (candidate_some hc).2.2.1, ?_⟩
  intro a b
  rcases createEdge_ret a b with ⟨_, hf⟩ | ⟨_, h1, h2⟩
  · rw [createEdge_fail a b hf]
    exact ⟨Or.inl rfl, Or.inl rfl⟩
  · obtain ⟨_, _, _, _, _, c1, c2, _⟩ := createEdge_ok a b h1 h2
    exact ⟨Or.inr c1, Or.inr c2⟩

theorem generate_no_self_loop_witness :
    generate sampleFresh (sampleDraws.take 30) = some (sampleMid, [])
    ∧ (∀ k < 7, (roomAt sampleMid.rooms k).name ∉ connNames (roomAt sampleMid.rooms k))
    ∧ (∀ r c, candidate sampleMid r = some c → c ≠ sampleMid.i)
    ∧ (∀ a b : Room,
        (connNames (_createEdge a b).1 = connNames a
          ∨ connNames (_createEdge a b).1 = connNames a ++ [b.name])
        ∧ (connNames (_createEdge a b).2.1 = connNames b
          ∨ connNames (_createEdge a b).2.1 = connNames b ++ [a.name])) :=
  ⟨by decide, generate_no_self_loop sampleFresh (sampleDraws.take 30) [] sampleMid (by decide)⟩

/-- C4: in every graph state reachable during generation, no connection list
contains the same room name twice, although `_createEdge` searches only the list
of `roomBase`. -/
theorem generate_no_duplicate (fresh : Nat → CString) (draws rest : List Nat) (s : EdgeLoop)
    (h : generate fresh draws = some (s, rest)) :
    ∀ k < 7, (connNames (roomAt s.rooms k)).Nodup :=
  (generate_inv h).graph.nodup

theorem generate_no_duplicate_witness :
    generate sampleFresh (sampleDraws.take 30) = some (sampleMid, [])
    ∧ ∀ k < 7, (connNames (roomAt sampleMid.rooms k)).Nodup :=
  ⟨by decide, generate_no_duplicate sampleFresh (sampleDraws.take 30) [] sampleMid (by decide)⟩

/-- C5: generation is never infeasible.  In every state reachable during edge
construction in which the current room has fewer connections than its capacity
there is another room `c` for which `_createEdge(rooms[i], rooms[c])` returns 1;
at every draw of the loop the current room is in that situation; and from every
reachable state some further draws complete the generation. -/
theorem generate_feasible (fresh : Nat → CString) (draws rest : List Nat) (s : EdgeLoop)
    (h : generate fresh draws = some (s, rest)) :
    (s.i < 7 →
      (roomAt s.rooms s.i).connectionList.size < (roomAt s.rooms s.i).connectionList.capacity →
      ∃ c, c < 7 ∧ c ≠ s.i ∧ (_createEdge (roomAt s.rooms s.i) (roomAt s.rooms c)).2.2 = 1)
    ∧ (s.i < 7 →
      (roomAt s.rooms s.i).connectionList.size < (roomAt s.rooms s.i).connectionList.capacity)
    ∧ ∃ more, (runEdges s more).1.i = 7 := by
  have hinv := generate_inv h
  refine ⟨fun hi hsz => exists_candidate hinv.graph s.i hi hsz, ?_,
    can_finish _ s hinv (le_refl _)⟩
  intro hi
  obtain ⟨_, _, _⟩ := hinv.cur hi
  omega

theorem generate_feasible_witness :
    generate sampleFresh (sampleDraws.take 30) = some (sampleMid, [])
    ∧ sampleMid.i < 7
    ∧ (roomAt sampleMid.rooms sampleMid.i).connectionList.size
        < (roomAt sampleMid.rooms sampleMid.i).connectionList.capacity
    ∧ (∃ c, c < 7 ∧ c ≠ sampleMid.i
        ∧ (_createEdge (roomAt sampleMid.rooms sampleMid.i) (roomAt sampleMid.rooms c)).2.2 = 1)
    ∧ ∃ more, (runEdges sampleMid more).1.i = 7 :=
  ⟨by decide, by decide, by decide,
    (generate_feasible sampleFresh (sampleDraws.take 30) [] sampleMid (by decide)).1
      (by decide) (by decide),
    (generate_feasible sampleFresh (sampleDraws.take 30) [] sampleMid (by decide)).2.2⟩

/-- C6: `_createEdge(a, b)` returns 0 if and only if the name of `b` is already
in the connection list of `a` or the connection count of `b` equals 6, and it
returns 1 otherwise; when it returns 0 both rooms are unchanged; when it returns
1 the name of `b` has been appended at the end of the list of `a`, the name of `a`
at the end of the list of `b`, and each size has grown by exactly 1. -/
theorem createEdge_contract (a b : Room) :
    ((_createEdge a b).2.2 = 0 ↔ (b.name ∈ connNames a ∨ b.connectionList.size = 6))
    ∧ ((_createEdge a b).2.2 = 0 ∨ (_createEdge a b).2.2 = 1)
    ∧ ((_createEdge a b).2.2 = 0 → (_createEdge a b).1 = a ∧ (_createEdge a b).2.1 = b)
    ∧ ((_createEdge a b).2.2 = 1 →
        connNames (_createEdge a b).1 = connNames a ++ [b.name]
        ∧ connNames (_createEdge a b).2.1 = connNames b ++ [a.name]
        ∧ (_createEdge a b).1.connectionList.size = a.connectionList.size + 1
        ∧ (_createEdge a b).2.1.connectionList.size = b.connectionList.size + 1) := by
  rcases createEdge_ret a b with ⟨h0, hf⟩ | ⟨h1, g1, g2⟩
  · refine ⟨⟨fun _ => hf, fun _ => h0⟩, Or.inl h0, ?_, ?_⟩
    · intro _
      rw [createEdge_fail a b hf]
      exact ⟨rfl, rfl⟩
    · intro h1
      rw [h0] at h1
      exact absurd h1 (by decide)
  · obtain ⟨_, _, _, _, _, c1, c2, s1, s2, _⟩ := createEdge_ok a b g1 g2
    refine ⟨⟨?_, ?_⟩, Or.inr h1, ?_, fun _ => ⟨c1, c2, s1, s2⟩⟩
    · intro h0
      rw [h1] at h0
      exact absurd h0 (by decide)
    · rintro (hm | hs)
      · exact absurd hm g1
      · exact absurd hs g2
    · intro h0
      rw [h1] at h0
      exact absurd h0 (by decide)

theorem createEdge_contract_witness :
    (_createEdge (sampleRoom 6 2 3 [8, 3]) (sampleRoom 0 0 6 [])).2.2 = 1
    ∧ connNames (_createEdge (sampleRoom 6 2 3 [8, 3]) (sampleRoom 0 0 6 [])).1
        = connNames (sampleRoom 6 2 3 [8, 3]) ++ [(sampleRoom 0 0 6 []).name]
    ∧ connNames (_createEdge (sampleRoom 6 2 3 [8, 3]) (sampleRoom 0 0 6 [])).2.1
        = connNames (sampleRoom 0 0 6 []) ++ [(sampleRoom 6 2 3 [8, 3]).name]
    ∧ (_createEdge (sampleRoom 6 2 3 [8, 3]) (sampleRoom 0 0 6 [])).1.connectionList.size
        = (sampleRoom 6 2 3 [8, 3]).connectionList.size + 1
    ∧ (_createEdge (sampleRoom 6 2 3 [8, 3]) (sampleRoom 0 0 6 [])).2.1.connectionList.size
        = (sampleRoom 0 0 6 []).connectionList.size + 1 :=
  ⟨by decide,
    (createEdge_contract (sampleRoom 6 2 3 [8, 3]) (sampleRoom 0 0 6 [])).2.2.2 (by decide)⟩

/-- C7: the elasticity rule.  Whenever `_createEdge(a, b)` succeeds, the capacity
of `b` is raised by exactly 1 if the size of `b` equalled its capacity before the
call (that size was then below 6, for a room of at most 6 connections), and is
unchanged if the size of `b` was below its capacity; the capacity of `a` is never
changed by the call. -/
theorem createEdge_elasticity (a b : Room) :
    ((_createEdge a b).2.2 = 1 →
      (b.connectionList.size = b.connectionList.capacity → b.connectionList.size ≤ 6 →
        b.connectionList.size < 6
        ∧ (_createEdge a b).2.1.connectionList.capacity = b.connectionList.capacity + 1)
      ∧ (b.connectionList.size < b.connectionList.capacity →
        (_createEdge a b).2.1.connectionList.capacity = b.connectionList.capacity))
    ∧ (_createEdge a b).1.connectionList.capacity = a.connectionList.capacity := by
  rcases createEdge_ret a b with ⟨h0, hf⟩ | ⟨h1, g1, g2⟩
  · refine ⟨?_, by rw [createEdge_fail a b hf]⟩
    intro h1
    rw [h0] at h1
    exact absurd h1 (by decide)
  · obtain ⟨_, _, _, _, _, _, _, _, _, p1, p2⟩ := createEdge_ok a b g1 g2
    refine ⟨fun _ => ⟨?_, ?_⟩, p1⟩
    · intro he hle
      have hlt : b.connectionList.size < 7 := by omega
      rw [p2, if_pos ⟨he, hlt⟩]
      exact ⟨by omega, rfl⟩
    · intro hlt
      rw [p2, if_neg (fun hh => by omega)]

theorem createEdge_elasticity_witness :
    (_createEdge (sampleRoom 2 4 5 [4, 7, 3, 0]) (sampleRoom 6 3 3 [8, 3, 0])).2.2 = 1
    ∧ (sampleRoom 6 3 3 [8, 3, 0]).connectionList.size
        = (sampleRoom 6 3 3 [8, 3, 0]).connectionList.capacity
    ∧ ((sampleRoom 6 3 3 [8, 3, 0]).connectionList.size < 6
      ∧ (_createEdge (sampleRoom 2 4 5 [4, 7, 3, 0])
          (sampleRoom 6 3 3 [8, 3, 0])).2.1.connectionList.capacity
        = (sampleRoom 6 3 3 [8, 3, 0]).connectionList.capacity + 1)
    ∧ (_createEdge (sampleRoom 2 4 5 [4, 7, 3, 0])
        (sampleRoom 6 3 3 [8, 3, 0])).1.connectionList.capacity
      = (sampleRoom 2 4 5 [4, 7, 3, 0]).connectionList.capacity :=
  ⟨by decide, by decide,
    ((createEdge_elasticity (sampleRoom 2 4 5 [4, 7, 3, 0]) (sampleRoom 6 3 3 [8, 3, 0])).1
      (by decide)).1 (by decide) (by decide),
    (createEdge_elasticity (sampleRoom 2 4 5 [4, 7, 3, 0]) (sampleRoom 6 3 3 [8, 3, 0])).2⟩

/-- C8: on every sequence of draws on which the room selection loop completes,
the seven recorded bank indices (`roomsChosen`) are pairwise distinct and lie in
[0,10), every room is named by the index recorded for it, so the seven room
names are pairwise distinct entries of the ten-name bank, and the indices are
stored in the order in which they were first drawn. -/
theorem selectRooms_distinct (fresh : Nat → CString) (draws rest : List Nat) (s : Selection)
    (h : selectRooms fresh draws 0 selectionStart = some (s, rest)) :
    s.roomsChosen.length = 7 ∧ s.roomsChosen.Nodup
    ∧ (∀ c ∈ s.roomsChosen, 0 ≤ c ∧ c < 10)
    ∧ s.rooms.length = 7
    ∧ (∀ k < 7, ((roomAt s.rooms k).name : Int) = s.roomsChosen.getD k (-1))
    ∧ (s.rooms.map (fun r => nameString r.name)).Nodup
    ∧ (∀ r ∈ s.rooms, nameString r.name ∈ roomBank)
    ∧ ∃ used, draws = used ++ rest ∧ s.roomsChosen = (bankDraws used).eraseDups := by
  obtain ⟨hs, used, hu, hc⟩ := selectRooms_spec fresh draws.length draws (le_refl _) 0
    selectionStart s rest selectionStart_inv h
  have htake : s.roomsChosen.take 7 = s.roomsChosen := List.take_of_length_le (by rw [hs.clen])
  have hmap : s.rooms.map (fun r => nameString r.name)
      = (List.range 7).map (fun k => nameString (roomAt s.rooms k).name) := by
    conv_lhs => rw [rooms_eq_map s.rooms, hs.rlen]
    rw [List.map_map]
    rfl
  refine ⟨hs.clen, ?_, ?_, hs.rlen, fun k hk => (hs.room k hk).1, ?_, ?_, used, hu, hc⟩
  · have := hs.nodup
    rwa [htake] at this
  · have := hs.range
    rwa [htake] at this
  · rw [hmap]
    refine List.Nodup.map_on ?_ (List.nodup_range 7)
    intro x hx y hy e
    rw [List.mem_range] at hx hy
    exact hs.names_inj x hx y hy (nameString_inj _ _ (hs.name_lt x hx) (hs.name_lt y hy) e)
  · intro r hr
    have hr' : nameString r.name ∈ s.rooms.map (fun r => nameString r.name) :=
      List.mem_map.mpr ⟨r, hr, rfl⟩
    rw [hmap, List.mem_map] at hr'
    obtain ⟨k, hk, e⟩ := hr'
    rw [← e]
    exact nameString_mem _ (hs.name_lt k (List.mem_range.mp hk))

theorem selectRooms_distinct_witness :
    selectRooms sampleFresh sampleDraws 0 selectionStart
      = some (sampleSelection, sampleDraws.drop 20)
    ∧ sampleSelection.roomsChosen.length = 7 ∧ sampleSelection.roomsChosen.Nodup
    ∧ (∀ c ∈ sampleSelection.roomsChosen, 0 ≤ c ∧ c < 10)
    ∧ sampleSelection.rooms.length = 7
    ∧ (∀ k < 7, ((roomAt sampleSelection.rooms k).name : Int)
        = sampleSelection.roomsChosen.getD k (-1))
    ∧ (sampleSelection.rooms.map (fun r => nameString r.name)).Nodup
    ∧ (∀ r ∈ sampleSelection.rooms, nameString r.name ∈ roomBank)
    ∧ ∃ used, sampleDraws = used ++ sampleDraws.drop 20
        ∧ sampleSelection.roomsChosen = (bankDraws used).eraseDups :=
  ⟨by decide, selectRooms_distinct sampleFresh sampleDraws (sampleDraws.drop 20) sampleSelection
    (by decide)⟩

/-- C9: on every sequence of draws on which type assignment completes, exactly
one of the seven rooms has type START_ROOM, exactly one has type END_ROOM, these
two rooms are different, and each of the other five rooms has type MID_ROOM.
The type buffers that line 353 reads before any assignment to them are taken
not to begin with the first three characters of START_ROOM or END_ROOM. -/
theorem assignTypes_unique (rooms rooms' : List Room) (draws rest : List Nat)
    (hlen : rooms.length = 7)
    (hfresh : ∀ k < 7, strncmp (roomAt rooms k).type "START_ROOM".toList 3 ≠ 0
      ∧ strncmp (roomAt rooms k).type "END_ROOM".toList 3 ≠ 0)
    (h : assignTypes rooms draws = some (rooms', rest)) :
    rooms'.length = 7
    ∧ ∃ startIdx, startIdx < 7 ∧ ∃ endIdx, endIdx < 7 ∧ startIdx ≠ endIdx
      ∧ ∀ k < 7,
        ((roomAt rooms' k).type = "START_ROOM".toList ↔ k = startIdx)
        ∧ ((roomAt rooms' k).type = "END_ROOM".toList ↔ k = endIdx)
        ∧ (k ≠ startIdx → k ≠ endIdx → (roomAt rooms' k).type = "MID_ROOM".toList) := by
  match draws, h with
  | [], h => cases h
  | r :: rest0, h =>
    unfold assignTypes at h
    simp only at h
    split at h
    · cases h
    · next endIdx rest1 hend =>
      obtain ⟨he7, hne⟩ := chooseEnd_spec _ _ _ _ hend
      have hs7 : r % 7 < 7 := Nat.mod_lt _ (by decide)
      simp only [Option.some.injEq, Prod.mk.injEq] at h
      obtain ⟨h, -⟩ := h
      subst h
      have hl1 : (setType rooms (r % 7) "START_ROOM".toList).length = 7 := by
        rw [setType_length, hlen]
      have hl2 : (setType (setType rooms (r % 7) "START_ROOM".toList) endIdx
          "END_ROOM".toList).length = 7 := by
        rw [setType_length, hl1]
      have hty : ∀ k, (roomAt (setType (setType rooms (r % 7) "START_ROOM".toList) endIdx
          "END_ROOM".toList) k).type =
          if k = endIdx then "END_ROOM".toList
          else if k = r % 7 then "START_ROOM".toList else (roomAt rooms k).type := by
        intro k
        rw [roomAt_setType _ _ _ _ (by rw [hl1]; exact he7)]
        by_cases hke : k = endIdx
        · rw [if_pos hke, if_pos hke]
        · rw [if_neg hke, if_neg hke, roomAt_setType _ _ _ _ (by rw [hlen]; exact hs7)]
          by_cases hks : k = r % 7
          · rw [if_pos hks, if_pos hks]
          · rw [if_neg hks, if_neg hks]
      refine ⟨?_, r % 7, hs7, endIdx, he7, fun e => hne e.symm, ?_⟩
      · unfold setMidRooms
        rw [(setMidRooms_aux 7 _ (by rw [hl2])).1, hl2]
      · intro k hk
        rw [roomAt_setMidRooms _ hl2 k hk, hty k]
        by_cases hke : k = endIdx
        · have hks : ¬ k = r % 7 := fun e => hne (hke.symm.trans e)
          rw [if_pos hke, if_pos (Or.inr strncmp_end), hty k, if_pos hke]
          exact ⟨⟨fun e => absurd e end_ne_start, fun e => absurd e hks⟩,
            ⟨fun _ => hke, fun _ => rfl⟩, fun _ h2 => absurd hke h2⟩
        · rw [if_neg hke]
          by_cases hks : k = r % 7
          · rw [if_pos hks, if_pos (Or.inl strncmp_start), hty k, if_neg hke, if_pos hks]
            exact ⟨⟨fun _ => hks, fun _ => rfl⟩,
              ⟨fun e => absurd e start_ne_end, fun e => absurd e hke⟩, fun h1 _ => absurd hks h1⟩
          · rw [if_neg hks, if_neg (fun hh => hh.elim (hfresh k hk).1 (hfresh k hk).2)]
            exact ⟨⟨fun e => absurd e mid_ne_start, fun e => absurd e hks⟩,
              ⟨fun e => absurd e mid_ne_end, fun e => absurd e hke⟩, fun _ _ => rfl⟩

theorem assignTypes_unique_witness :
    sampleFinal.rooms.length = 7
    ∧ (∀ k < 7, strncmp (roomAt sampleFinal.rooms k).type "START_ROOM".toList 3 ≠ 0
      ∧ strncmp (roomAt sampleFinal.rooms k).type "END_ROOM".toList 3 ≠ 0)
    ∧ assignTypes sampleFinal.rooms [3, 3, 5] = some (sampleTyped, [])
    ∧ sampleTyped.length = 7
    ∧ ∃ startIdx, startIdx < 7 ∧ ∃ endIdx, endIdx < 7 ∧ startIdx ≠ endIdx
      ∧ ∀ k < 7,
        ((roomAt sampleTyped k).type = "START_ROOM".toList ↔ k = startIdx)
        ∧ ((roomAt sampleTyped k).type = "END_ROOM".toList ↔ k = endIdx)
        ∧ (k ≠ startIdx → k ≠ endIdx → (roomAt sampleTyped k).type = "MID_ROOM".toList) :=
  ⟨rfl, by decide, by decide,
    assignTypes_unique sampleFinal.rooms sampleTyped [3, 3, 5] [] rfl (by decide) (by decide)⟩

/-- C10: in a turn of the play loop the input line is accepted (a step is
recorded) if and only if its first 3 characters equal the first 3 characters of
some connection name presented for the current room; when it is accepted, the
name written to `pathToVictory` at row `stepsTaken` (appended, when the rows
written so far are `stepsTaken` many) is the full name of the earliest-listed
connection that matches; so an input starting with "Eng" is accepted and
records "Engineering" whenever Engineering is among the presented connections,
all of which are names of the bank. -/
theorem matchChoice_first_three (rooms : List Room) (choices : List CString) (printcounter : Nat)
    (inputString : CString) (player : PlayerToken) (beginIdx : Nat)
    (hp : printcounter ≤ choices.length) :
    ((matchChoice rooms choices printcounter inputString player beginIdx).player.stepsTaken
        = player.stepsTaken + 1
      ↔ ∃ c ∈ choices.take printcounter, c.take 3 = inputString.take 3)
    ∧ ((∃ c ∈ choices.take printcounter, c.take 3 = inputString.take 3) →
      ∃ c, (choices.take printcounter).find?
          (fun c => decide (c.take 3 = inputString.take 3)) = some c
        ∧ (matchChoice rooms choices printcounter inputString player beginIdx).player.pathToVictory
            = store player.pathToVictory player.stepsTaken c
        ∧ (player.pathToVictory.length = player.stepsTaken →
          (matchChoice rooms choices printcounter inputString player beginIdx).player.pathToVictory
            = player.pathToVictory ++ [c]))
    ∧ ("Engineering".toList ∈ choices.take printcounter →
      (∀ c ∈ choices.take printcounter, c ∈ roomBank) →
      inputString.take 3 = "Eng".toList →
      (matchChoice rooms choices printcounter inputString player beginIdx).player.stepsTaken
          = player.stepsTaken + 1
      ∧ (matchChoice rooms choices printcounter inputString player beginIdx).player.pathToVictory
          = store player.pathToVictory player.stepsTaken "Engineering".toList) := by
  have hm := matchChoice_eq rooms choices printcounter inputString player beginIdx hp
  cases hf : (choices.take printcounter).find?
      (fun c => decide (c.take 3 = inputString.take 3)) with
  | none =>
    rw [hf] at hm
    have hnone : ¬ ∃ c ∈ choices.take printcounter, c.take 3 = inputString.take 3 := by
      rintro ⟨c, hc, e⟩
      have := List.find?_eq_none.mp hf c hc
      simp [e] at this
    have hpl : (matchChoice rooms choices printcounter inputString player beginIdx).player
        = player := by
      rw [hm]
      simp only
      split <;> rfl
    refine ⟨⟨?_, fun h => absurd h hnone⟩, fun h => absurd h hnone, ?_⟩
    · intro h
      rw [hpl] at h
      omega
    · intro he _ hi
      exact absurd ⟨_, he, by rw [hi]; rfl⟩ hnone
  | some c =>
    rw [hf] at hm
    have hc : c ∈ choices.take printcounter := List.mem_of_find?_eq_some hf
    have hcp : c.take 3 = inputString.take 3 := by
      have := List.find?_some hf
      simpa using this
    have hsteps : (matchChoice rooms choices printcounter inputString player
        beginIdx).player.stepsTaken = player.stepsTaken + 1 := by rw [hm]; rfl
    have hpath : (matchChoice rooms choices printcounter inputString player
        beginIdx).player.pathToVictory = store player.pathToVictory player.stepsTaken c := by
      rw [hm]; rfl
    refine ⟨⟨fun _ => ⟨c, hc, hcp⟩, fun _ => hsteps⟩, fun _ => ⟨c, rfl, hpath, ?_⟩, ?_⟩
    · intro hl
      rw [hpath]
      unfold store
      rw [if_neg (by omega)]
    · intro _ hb hi
      have : c = "Engineering".toList := bank_eng_unique c (hb c hc) (by rw [hcp, hi])
      rw [← this]
      exact ⟨hsteps, hpath⟩

theorem matchChoice_first_three_witness :
    3 ≤ ["Lounge".toList, "Engineering".toList, "Lab".toList].length
    ∧ (matchChoice sampleTyped ["Lounge".toList, "Engineering".toList, "Lab".toList] 3
        "Eng\n".toList { stepsTaken := 1, pathToVictory := ["Bridge".toList] } 3).player
      = { stepsTaken := 2, pathToVictory := ["Bridge".toList, "Engineering".toList] }
    ∧ (matchChoice sampleTyped ["Lounge".toList, "Engineering".toList, "Lab".toList] 3
        "Eng\n".toList { stepsTaken := 1, pathToVictory := ["Bridge".toList] } 3).player.stepsTaken
      = 1 + 1
    ∧ (matchChoice sampleTyped ["Lounge".toList, "Engineering".toList, "Lab".toList] 3
        "Eng\n".toList { stepsTaken := 1, pathToVictory := ["Bridge".toList] }
          3).player.pathToVictory
      = store ["Bridge".toList] 1 "Engineering".toList :=
  ⟨by decide, by decide,
    (matchChoice_first_three sampleTyped ["Lounge".toList, "Engineering".toList, "Lab".toList] 3
      "Eng\n".toList { stepsTaken := 1, pathToVictory := ["Bridge".toList] } 3
      (by decide)).2.2 (by decide) (by decide) (by decide)⟩

/-- C12: for every current room and every input line whose first 3 characters
match none of the presented connections, the turn is rejected: `stepsTaken`,
`pathToVictory` and the current room are unchanged, and the error flag is set
when a connection was presented.  An empty line, and any line with fewer than 3
characters in front of its newline, matches no name of the bank, and is
rejected in this way when the presented names are names of the bank. -/
theorem matchChoice_rejected (rooms : List Room) (choices : List CString) (printcounter : Nat)
    (inputString : CString) (player : PlayerToken) (beginIdx : Nat)
    (hp : printcounter ≤ choices.length) :
    ((∀ c ∈ choices.take printcounter, c.take 3 ≠ inputString.take 3) →
      (matchChoice rooms choices printcounter inputString player beginIdx).player = player
      ∧ (matchChoice rooms choices printcounter inputString player beginIdx).beginIdx = beginIdx
      ∧ (0 < printcounter →
        (matchChoice rooms choices printcounter inputString player beginIdx).error = 1))
    ∧ ((inputString.take 3).length < 3 ∨ '\n' ∈ inputString.take 3 →
      ∀ c ∈ roomBank, c.take 3 ≠ inputString.take 3)
    ∧ ((∀ c ∈ choices.take printcounter, c ∈ roomBank) →
      (inputString.take 3).length < 3 ∨ '\n' ∈ inputString.take 3 →
      (matchChoice rooms choices printcounter inputString player beginIdx).player = player
      ∧ (matchChoice rooms choices printcounter inputString player beginIdx).beginIdx
          = beginIdx) := by
  have part1 : (∀ c ∈ choices.take printcounter, c.take 3 ≠ inputString.take 3) →
      (matchChoice rooms choices printcounter inputString player beginIdx).player = player
      ∧ (matchChoice rooms choices printcounter inputString player beginIdx).beginIdx = beginIdx
      ∧ (0 < printcounter →
        (matchChoice rooms choices printcounter inputString player beginIdx).error = 1) := by
    intro hno
    have hm := matchChoice_eq rooms choices printcounter inputString player beginIdx hp
    have hf : (choices.take printcounter).find?
        (fun c => decide (c.take 3 = inputString.take 3)) = none := by
      rw [List.find?_eq_none]
      intro c hc
      simpa using hno c hc
    rw [hf] at hm
    rw [hm]
    simp only
    by_cases h0 : printcounter = 0
    · rw [if_pos h0]
      exact ⟨rfl, rfl, fun h => by omega⟩
    · rw [if_neg h0]
      exact ⟨rfl, rfl, fun _ => rfl⟩
  have part2 : (inputString.take 3).length < 3 ∨ '\n' ∈ inputString.take 3 →
      ∀ c ∈ roomBank, c.take 3 ≠ inputString.take 3 := by
    intro hshort c hc e
    have hb : ∀ c ∈ roomBank, (c.take 3).length = 3 ∧ '\n' ∉ c.take 3 := by decide
    obtain ⟨h1, h2⟩ := hb c hc
    rw [e] at h1 h2
    rcases hshort with h | h
    · omega
    · exact h2 h
  refine ⟨part1, part2, fun hbank hshort => ?_⟩
  obtain ⟨h1, h2, -⟩ := part1 (fun c hc => part2 hshort c (hbank c hc))
  exact ⟨h1, h2⟩

theorem matchChoice_rejected_witness :
    3 ≤ ["Lounge".toList, "Engineering".toList, "Lab".toList].length
    ∧ (∀ c ∈ ["Lounge".toList, "Engineering".toList, "Lab".toList].take 3,
        c.take 3 ≠ "La\n".toList.take 3)
    ∧ (matchChoice sampleTyped ["Lounge".toList, "Engineering".toList, "Lab".toList] 3
        "La\n".toList { stepsTaken := 1, pathToVictory := ["Bridge".toList] } 3).player
      = { stepsTaken := 1, pathToVictory := ["Bridge".toList] }
    ∧ (matchChoice sampleTyped ["Lounge".toList, "Engineering".toList, "Lab".toList] 3
        "La\n".toList { stepsTaken := 1, pathToVictory := ["Bridge".toList] } 3).beginIdx = 3
    ∧ (0 < 3 →
      (matchChoice sampleTyped ["Lounge".toList, "Engineering".toList, "Lab".toList] 3
        "La\n".toList { stepsTaken := 1, pathToVictory := ["Bridge".toList] } 3).error = 1) :=
  ⟨by decide, by decide,
    (matchChoice_rejected sampleTyped ["Lounge".toList, "Engineering".toList, "Lab".toList] 3
      "La\n".toList { stepsTaken := 1, pathToVictory := ["Bridge".toList] } 3
      (by decide)).1 (by decide)⟩

/-- C16, as stated, fails: over the seven raw draws 0, ..., 6 the computed number
of connections is 3 once but 4 twice, so the four values are not taken equally
often. -/
theorem numConnections_not_uniform :
    ¬ (drawsGiving 3 = drawsGiving 4 ∧ drawsGiving 4 = drawsGiving 5
      ∧ drawsGiving 5 = drawsGiving 6) := by
  decide

/-- C16, amended: the target degree of a room lies in [3,6] for every raw draw,
and a room is created with that capacity and size 0; over the seven raw draws
0, ..., 6 the value 3 is computed once and each of 4, 5 and 6 twice. -/
theorem numConnections_distribution :
    (∀ draw, 3 ≤ numConnections draw ∧ numConnections draw ≤ 6)
    ∧ (∀ name draw fresh,
        (_createRoom name (numConnections draw) fresh).connectionList.capacity
          = numConnections draw
        ∧ (_createRoom name (numConnections draw) fresh).connectionList.size = 0)
    ∧ (List.range 7).map numConnections = [3, 4, 5, 6, 4, 5, 6]
    ∧ drawsGiving 3 = 1 ∧ drawsGiving 4 = 2 ∧ drawsGiving 5 = 2 ∧ drawsGiving 6 = 2 :=
  ⟨numConnections_bounds, fun _ _ _ => ⟨rfl, rfl⟩, by decide, by decide, by decide, by decide,
    by decide⟩

/-- C18: in every state reachable during generation a room with 6 connections
is connected to all six other rooms; so whenever the edge construction loop
calls `_createEdge` for a candidate with 6 connections, the check for an
existing connection (lines 125-129) already returns 0, and the test of line 132
is never the one that rejects the candidate. -/
theorem generate_hard_cap_unused (fresh : Nat → CString) (draws rest : List Nat) (s : EdgeLoop)
    (h : generate fresh draws = some (s, rest)) :
    (∀ c < 7, (roomAt s.rooms c).connectionList.size = 6 →
      ∀ l < 7, l ≠ c → (roomAt s.rooms l).name ∈ connNames (roomAt s.rooms c))
    ∧ (∀ r c, candidate s r = some c → (roomAt s.rooms c).connectionList.size = 6 →
      alreadyConnected (roomAt s.rooms s.i) (roomAt s.rooms c) = true) := by
  have hg := (generate_inv h).graph
  refine ⟨fun c hc hsz l hl hlc => full_room_connected hg c hc hsz l hl hlc, ?_⟩
  intro r c hcand hsz
  obtain ⟨hi, hc, hne, -⟩ := candidate_some hcand
  rw [alreadyConnected_iff]
  exact hg.symm c hc s.i hi (full_room_connected hg c hc hsz s.i hi (fun e => hne e.symm))

theorem generate_hard_cap_unused_witness :
    generate sampleFresh (sampleDraws.take 43) = some (sampleLate, [])
    ∧ candidate sampleLate 1 = some 1
    ∧ (roomAt sampleLate.rooms 1).connectionList.size = 6
    ∧ alreadyConnected (roomAt sampleLate.rooms sampleLate.i) (roomAt sampleLate.rooms 1) = true :=
  ⟨by decide, by decide, by decide,
    (generate_hard_cap_unused sampleFresh (sampleDraws.take 43) [] sampleLate (by decide)).2 1 1
      (by decide) (by decide)⟩

/-- C19: throughout generation every room satisfies size ≤ capacity ≤ 6; from
the moment the turn of a room in the edge construction loop has finished its
size equals its capacity; hence when generation completes the connection count
of every room equals its (possibly raised) target degree. -/
theorem generate_size_eq_capacity (fresh : Nat → CString) (draws rest : List Nat) (s : EdgeLoop)
    (h : generate fresh draws = some (s, rest)) :
    (∀ k < 7, (roomAt s.rooms k).connectionList.size ≤ (roomAt s.rooms k).connectionList.capacity
      ∧ (roomAt s.rooms k).connectionList.capacity ≤ 6)
    ∧ (∀ k < s.i, (roomAt s.rooms k).connectionList.size
        = (roomAt s.rooms k).connectionList.capacity)
    ∧ (s.i = 7 → ∀ k < 7, (connNames (roomAt s.rooms k)).length
        = (roomAt s.rooms k).connectionList.capacity) := by
  have hinv := generate_inv h
  refine ⟨fun k hk => ⟨(hinv.graph.bounds k hk).1, (hinv.graph.bounds k hk).2.2⟩,
    hinv.finished, ?_⟩
  intro hdone k hk
  rw [hinv.graph.card k hk]
  exact hinv.finished k (by omega)

theorem generate_size_eq_capacity_witness :
    generate sampleFresh sampleDraws = some (sampleFinal, [3, 3, 5])
    ∧ sampleFinal.i = 7
    ∧ ∀ k < 7, (connNames (roomAt sampleFinal.rooms k)).length
        = (roomAt sampleFinal.rooms k).connectionList.capacity :=
  ⟨by decide, rfl,
    (generate_size_eq_capacity sampleFresh sampleDraws [3, 3, 5] sampleFinal (by decide)).2.2 rfl⟩

set_option maxRecDepth 8000 in
/-- C11: in every generated game, for every accepted input whose name goes to
one of the 32 rows of `pathToVictory` (`stepsTaken < 32`), the new current room
is the one selected room whose name equals the connection name just written,
although the code finds it with the scan of lines 490-497, which compares the
first 3 characters of every room name with the raw input and keeps the last
hit.  For an accepted input at `stepsTaken = 32`, as in the game `sampleTyped`
after 32 accepted inputs, line 483 writes the name to row 32, outside the
array, before the scan is run. -/
theorem playTurn_next_room :
    (∀ (rooms : List Room) (st : Play) (inputString : CString), Generated rooms →
      st.beginIdx < 7 → st.player.stepsTaken < pathRows →
      (playTurn rooms st inputString).player.stepsTaken = st.player.stepsTaken + 1 →
      (playTurn rooms st inputString).player.stepsTaken ≤ pathRows
      ∧ ∃ c, (presented rooms st).find?
            (fun c => decide (c.take 3 = inputString.take 3)) = some c
        ∧ (playTurn rooms st inputString).player.pathToVictory
            = store st.player.pathToVictory st.player.stepsTaken c
        ∧ (playTurn rooms st inputString).beginIdx
            = nextRoomScan rooms inputString st.beginIdx
        ∧ (playTurn rooms st inputString).beginIdx < 7
        ∧ nameString (roomAt rooms (playTurn rooms st inputString).beginIdx).name = c
        ∧ ∀ k < 7, nameString (roomAt rooms k).name = c →
            k = (playTurn rooms st inputString).beginIdx)
    ∧ (Generated sampleTyped
      ∧ (playLoop sampleTyped (playStart sampleTyped) (bounceInputs 32)).1.beginIdx < 7
      ∧ (playLoop sampleTyped (playStart sampleTyped) (bounceInputs 32)).1.player.stepsTaken
          = pathRows
      ∧ (presented sampleTyped
            (playLoop sampleTyped (playStart sampleTyped) (bounceInputs 32)).1).find?
          (fun c => decide (c.take 3 = "Engineering\n".toList.take 3))
          = some "Engineering".toList
      ∧ (playTurn sampleTyped (playLoop sampleTyped (playStart sampleTyped) (bounceInputs 32)).1
          "Engineering\n".toList).player.pathToVictory[pathRows]?
          = some "Engineering".toList) := by
  refine ⟨?_, sampleTyped_generated, by decide, by decide, by decide, by decide⟩
  intro rooms st inputString hgen hb hrow hacc
  have h := hgen.inv
  refine ⟨by omega, ?_⟩
  cases hf : (presented rooms st).find?
      (fun c => decide (c.take 3 = inputString.take 3)) with
  | none =>
    rw [(playTurn_none rooms st inputString hf).1] at hacc
    omega
  | some c =>
    obtain ⟨hp, hscan⟩ := playTurn_some rooms st inputString c hf
    obtain ⟨hl, hname, -⟩ := playTurn_move h st hb inputString c hf
    refine ⟨c, rfl, by rw [hp], hscan, hl, hname, ?_⟩
    intro k hk e
    exact h.graph.inj k hk _ hl
      (nameString_inj _ _ (h.bank k hk) (h.bank _ hl) (e.trans hname.symm))

theorem playTurn_next_room_witness :
    Generated scenarioRooms ∧ (playStart scenarioRooms).beginIdx < 7
    ∧ (playStart scenarioRooms).player.stepsTaken < pathRows
    ∧ (playTurn scenarioRooms (playStart scenarioRooms) "Bridge\n".toList).player.stepsTaken
        = (playStart scenarioRooms).player.stepsTaken + 1
    ∧ (playTurn scenarioRooms (playStart scenarioRooms) "Bridge\n".toList).player.stepsTaken
        ≤ pathRows
    ∧ ∃ c, (presented scenarioRooms (playStart scenarioRooms)).find?
          (fun c => decide (c.take 3 = "Bridge\n".toList.take 3)) = some c
      ∧ (playTurn scenarioRooms (playStart scenarioRooms) "Bridge\n".toList).player.pathToVictory
          = store (playStart scenarioRooms).player.pathToVictory
              (playStart scenarioRooms).player.stepsTaken c
      ∧ (playTurn scenarioRooms (playStart scenarioRooms) "Bridge\n".toList).beginIdx
          = nextRoomScan scenarioRooms "Bridge\n".toList (playStart scenarioRooms).beginIdx
      ∧ (playTurn scenarioRooms (playStart scenarioRooms) "Bridge\n".toList).beginIdx < 7
      ∧ nameString (roomAt scenarioRooms
          (playTurn scenarioRooms (playStart scenarioRooms) "Bridge\n".toList).beginIdx).name = c
      ∧ ∀ k < 7, nameString (roomAt scenarioRooms k).name = c →
          k = (playTurn scenarioRooms (playStart scenarioRooms) "Bridge\n".toList).beginIdx :=
  ⟨scenarioRooms_generated, by decide, by decide, by decide,
    playTurn_next_room.1 scenarioRooms (playStart scenarioRooms) "Bridge\n".toList
      scenarioRooms_generated (by decide) (by decide) (by decide)⟩

set_option maxRecDepth 8000 in
/-- C13: for every sequence of input lines fed to the play loop from a fresh
player (`stepsTaken = 0`), after any prefix of the sequence with at most 32
accepted inputs has been processed, `stepsTaken` equals the number of inputs
accepted so far and the recorded path has exactly `stepsTaken` entries, the
matched connection names in the order in which they were accepted, all in the
32 rows of `pathToVictory`.  With 33 accepted inputs, as for `bounceInputs 33`
in the game `sampleTyped`, the path asked for has one entry more than the array
has rows. -/
theorem playLoop_steps :
    (∀ (rooms : List Room) (inputs : List CString) (n : Nat),
      (acceptedNames rooms (playStart rooms) (inputs.take n)).length ≤ pathRows →
      (playStart rooms).player.stepsTaken = 0
      ∧ (playLoop rooms (playStart rooms) (inputs.take n)).1.player.stepsTaken
          = (acceptedNames rooms (playStart rooms) (inputs.take n)).length
      ∧ (playLoop rooms (playStart rooms) (inputs.take n)).1.player.pathToVictory.length
          = (playLoop rooms (playStart rooms) (inputs.take n)).1.player.stepsTaken
      ∧ (playLoop rooms (playStart rooms) (inputs.take n)).1.player.pathToVictory
          = acceptedNames rooms (playStart rooms) (inputs.take n)
      ∧ (playLoop rooms (playStart rooms) (inputs.take n)).1.player.pathToVictory.length
          ≤ pathRows)
    ∧ (Generated sampleTyped
      ∧ (acceptedNames sampleTyped (playStart sampleTyped) (bounceInputs 33)).length
          = pathRows + 1
      ∧ (acceptedNames sampleTyped (playStart sampleTyped) (bounceInputs 33))[pathRows]?
          = some "Engineering".toList) := by
  refine ⟨?_, sampleTyped_generated, by decide, by decide⟩
  intro rooms inputs n hrows
  obtain ⟨h1, h2⟩ := playLoop_path rooms (inputs.take n) (playStart rooms) rfl
  have e0 : (playStart rooms).player.stepsTaken = 0 := rfl
  have p0 : (playStart rooms).player.pathToVictory = [] := rfl
  rw [e0, Nat.zero_add] at h2
  rw [p0, List.nil_append] at h1
  exact ⟨rfl, h2, by rw [h1, h2], h1, by rw [h1]; exact hrows⟩

theorem playLoop_steps_witness :
    (acceptedNames scenarioRooms (playStart scenarioRooms)
        (["Bridge\n".toList, "xyz\n".toList, "Holodeck\n".toList].take 3)).length ≤ pathRows
    ∧ (playLoop scenarioRooms (playStart scenarioRooms)
        (["Bridge\n".toList, "xyz\n".toList, "Holodeck\n".toList].take 3)).1.player
      = { stepsTaken := 2, pathToVictory := ["Bridge".toList, "Holodeck".toList] }
    ∧ acceptedNames scenarioRooms (playStart scenarioRooms)
        (["Bridge\n".toList, "xyz\n".toList, "Holodeck\n".toList].take 3)
      = ["Bridge".toList, "Holodeck".toList]
    ∧ (playLoop scenarioRooms (playStart scenarioRooms)
        (["Bridge\n".toList, "xyz\n".toList, "Holodeck\n".toList].take 3)).1.player.stepsTaken
      = (acceptedNames scenarioRooms (playStart scenarioRooms)
          (["Bridge\n".toList, "xyz\n".toList, "Holodeck\n".toList].take 3)).length :=
  ⟨by decide, by decide, by decide,
    (playLoop_steps.1 scenarioRooms ["Bridge\n".toList, "xyz\n".toList, "Holodeck\n".toList]
      3 (by decide)).2.1⟩

/-- C15: the play loop starts at the START room and stops reading input exactly
when the type of the current room is END: in the END room no input is read and
`stepsTaken` and `pathToVictory` stay as they are; in any other room the next
input is read; and input is left unread only in the END room.  From the START
room Conference with the connections Lounge, Bridge, Lab, the inputs "Bridge"
and then "Holodeck", the name of the END room, end the game with
`stepsTaken = 2` and the path Bridge, Holodeck, and a third input is not read. -/
theorem playLoop_stops_at_end (rooms : List Room) (hgen : Generated rooms) :
    ((playStart rooms).beginIdx < 7
      ∧ (roomAt rooms (playStart rooms).beginIdx).type = "START_ROOM".toList)
    ∧ (∀ st : Play, st.beginIdx < 7 →
        (atEnd rooms st = true ↔ (roomAt rooms st.beginIdx).type = "END_ROOM".toList))
    ∧ (∀ (st : Play) (inputs : List CString), atEnd rooms st = true →
        playLoop rooms st inputs = (st, inputs))
    ∧ (∀ (st : Play) (inputString : CString) (rest : List CString), atEnd rooms st = false →
        playLoop rooms st (inputString :: rest)
          = playLoop rooms (playTurn rooms st inputString) rest)
    ∧ (∀ (st : Play) (inputs : List CString), (playLoop rooms st inputs).2 ≠ [] →
        atEnd rooms (playLoop rooms st inputs).1 = true)
    ∧ (Generated scenarioRooms
      ∧ nameString (roomAt scenarioRooms (playStart scenarioRooms).beginIdx).name
          = "Conference".toList
      ∧ presented scenarioRooms (playStart scenarioRooms)
          = ["Lounge".toList, "Bridge".toList, "Lab".toList]
      ∧ (playLoop scenarioRooms (playStart scenarioRooms)
          ["Bridge\n".toList, "Holodeck\n".toList, "Lab\n".toList]).1.player
          = { stepsTaken := 2, pathToVictory := ["Bridge".toList, "Holodeck".toList] }
      ∧ (playLoop scenarioRooms (playStart scenarioRooms)
          ["Bridge\n".toList, "Holodeck\n".toList, "Lab\n".toList]).2 = ["Lab\n".toList]
      ∧ (roomAt scenarioRooms (playLoop scenarioRooms (playStart scenarioRooms)
          ["Bridge\n".toList, "Holodeck\n".toList, "Lab\n".toList]).1.beginIdx).type
          = "END_ROOM".toList) := by
  have h := hgen.inv
  exact ⟨playStart_type h, atEnd_iff h, playLoop_at_end rooms, playLoop_turn rooms,
    fun st inputs => playLoop_unread rooms inputs st,
    scenarioRooms_generated, by decide, by decide, by decide, by decide, by decide⟩

theorem playLoop_stops_at_end_witness :
    Generated sampleTyped
    ∧ (roomAt sampleTyped (playStart sampleTyped).beginIdx).type = "START_ROOM".toList
    ∧ playLoop sampleTyped
        { player := { stepsTaken := 1, pathToVictory := ["Holodeck".toList] }, beginIdx := 5,
          choices := [] } ["Lab\n".toList]
      = ({ player := { stepsTaken := 1, pathToVictory := ["Holodeck".toList] }, beginIdx := 5,
           choices := [] }, ["Lab\n".toList]) :=
  ⟨sampleTyped_generated, (playLoop_stops_at_end sampleTyped sampleTyped_generated).1.2,
    (playLoop_stops_at_end sampleTyped sampleTyped_generated).2.2.1 _ _ (by decide)⟩

set_option maxRecDepth 8000 in
/-- C20: the recorded path is a walk in the generated graph that starts from
the START room: in every generated game, for every input sequence with at most
32 accepted inputs, the first entry of the path is the name of a room connected
to the START room and every later entry is the name of a room connected to the
room named by the entry in front of it.  With 33 accepted inputs, as for
`bounceInputs 33` in the game `sampleTyped`, the last name of the walk is
written to row 32, outside `pathToVictory`. -/
theorem playLoop_walk :
    (∀ (rooms : List Room) (inputs : List CString), Generated rooms →
      (acceptedNames rooms (playStart rooms) inputs).length ≤ pathRows →
      (roomAt rooms (playStart rooms).beginIdx).type = "START_ROOM".toList
      ∧ (playLoop rooms (playStart rooms) inputs).1.player.pathToVictory.length ≤ pathRows
      ∧ IsWalk rooms (playStart rooms).beginIdx
          (playLoop rooms (playStart rooms) inputs).1.player.pathToVictory)
    ∧ (Generated sampleTyped
      ∧ (playLoop sampleTyped (playStart sampleTyped) (bounceInputs 33)).2 = []
      ∧ (playLoop sampleTyped (playStart sampleTyped)
          (bounceInputs 33)).1.player.pathToVictory.length = pathRows + 1
      ∧ (playLoop sampleTyped (playStart sampleTyped)
          (bounceInputs 33)).1.player.pathToVictory[pathRows]? = some "Engineering".toList) := by
  refine ⟨?_, sampleTyped_generated, by decide, by decide, by decide⟩
  intro rooms inputs hgen hrows
  have h := hgen.inv
  obtain ⟨hb, hs⟩ := playStart_type h
  obtain ⟨ext, h1, h2⟩ := playLoop_walk_from h inputs (playStart rooms) hb rfl
  obtain ⟨hp, -⟩ := playLoop_path rooms inputs (playStart rooms) rfl
  have p0 : (playStart rooms).player.pathToVictory = [] := rfl
  rw [p0, List.nil_append] at h1 hp
  refine ⟨hs, by rw [hp]; exact hrows, ?_⟩
  rw [h1]
  exact h2

theorem playLoop_walk_witness :
    Generated scenarioRooms
    ∧ (acceptedNames scenarioRooms (playStart scenarioRooms)
        ["Bridge\n".toList, "xyz\n".toList, "Holodeck\n".toList]).length ≤ pathRows
    ∧ (playLoop scenarioRooms (playStart scenarioRooms)
        ["Bridge\n".toList, "xyz\n".toList, "Holodeck\n".toList]).1.player.pathToVictory
      = ["Bridge".toList, "Holodeck".toList]
    ∧ (roomAt scenarioRooms (playStart scenarioRooms).beginIdx).type = "START_ROOM".toList
    ∧ (playLoop scenarioRooms (playStart scenarioRooms)
        ["Bridge\n".toList, "xyz\n".toList, "Holodeck\n".toList]).1.player.pathToVictory.length
      ≤ pathRows
    ∧ IsWalk scenarioRooms (playStart scenarioRooms).beginIdx
        (playLoop scenarioRooms (playStart scenarioRooms)
          ["Bridge\n".toList, "xyz\n".toList, "Holodeck\n".toList]).1.player.pathToVictory :=
  ⟨scenarioRooms_generated, by decide, by decide,
    playLoop_walk.1 scenarioRooms ["Bridge\n".toList, "xyz\n".toList, "Holodeck\n".toList]
      scenarioRooms_generated (by decide)⟩

set_option maxRecDepth 8000 in
/-- C14 at the failing input: in the generated game `sampleTyped`, after 32
accepted inputs that walk to and fro between Transporter and Engineering,
`stepsTaken` is 32 and the END room has not been reached; the next input is
accepted as well and its name is written to row 32 of `pathToVictory`, which has
the rows 0, ..., 31. -/
theorem playLoop_row_32 :
    Generated sampleTyped
    ∧ pathRows = 32
    ∧ (playLoop sampleTyped (playStart sampleTyped) (bounceInputs 32)).1.player.stepsTaken = 32
    ∧ (playLoop sampleTyped (playStart sampleTyped) (bounceInputs 32)).2 = []
    ∧ atEnd sampleTyped (playLoop sampleTyped (playStart sampleTyped) (bounceInputs 32)).1 = false
    ∧ (playTurn sampleTyped (playLoop sampleTyped (playStart sampleTyped) (bounceInputs 32)).1
        "Engineering\n".toList).player.stepsTaken = 33
    ∧ (playTurn sampleTyped (playLoop sampleTyped (playStart sampleTyped) (bounceInputs 32)).1
        "Engineering\n".toList).player.pathToVictory[32]? = some "Engineering".toList :=
  ⟨sampleTyped_generated, rfl, by decide, by decide, by decide, by decide, by decide⟩

end Adventure
